import Mathlib

/-!
# Verification of the agenda-based MCFG parser

A shallow embedding of `src/mcfg_parser/grammar.py` and
`src/mcfg_parser/abparser.py` (an agenda-based recognizer/parser for
multiple context-free grammars), together with proofs and refutations of
the specification claims about it.

Modelling conventions:
* Python tuples become Lean lists; spans `(begin, end)` become `Nat × Nat`.
* The dynamically-typed string variables (ints for ordinary rules, literal
  words for lexical rules) become the sum type `SV`.
* A Python function that can raise is modelled with an explicit error
  value (`InstResult` for `MCFGRule.instantiate_left_side`, `PyResult` for
  the parser entry points).  `PyResult.timeout` is a modelling artifact for
  the unbounded `while agenda:` loop, which we drive with explicit fuel.
-/

set_option maxHeartbeats 1000000

/-- A half-open input span `(begin, end)` as used throughout the source. -/
abbrev Span := Nat × Nat

/-- A string variable of a rule: ordinary rules carry positional integer
ids, lexical (epsilon) rules carry literal terminal words.  The Python
source mixes `int` and `str` in the same tuples; comparisons between the
two kinds are `False` in Python, matching `DecidableEq` here. -/
inductive SV where
  | ix : Nat → SV
  | lit : String → SV
deriving DecidableEq, Repr

/-- `MCFGRuleElement` from `grammar.py`: a nonterminal symbol together
with one tuple of string variables per component. -/
structure MCFGRuleElement where
  var : String
  string_variables : List (List SV)
deriving DecidableEq, Repr

/-- `MCFGRuleElementInstance` from `grammar.py`: a nonterminal whose
components are bound to concrete spans. -/
structure MCFGRuleElementInstance where
  var : String
  string_spans : List Span
deriving DecidableEq, Repr

/-- `MCFGRule` from `grammar.py`: a left element and a tuple of right
elements (empty for lexical/epsilon rules). -/
structure MCFGRule where
  left_side : MCFGRuleElement
  right_side : List MCFGRuleElement
deriving DecidableEq, Repr

def MCFGRule.is_epsilon (r : MCFGRule) : Bool :=
  r.right_side.isEmpty

/-- `MCFGRuleElement.unique_string_variables` (as a list; only membership
matters, mirroring the Python `set`). -/
def MCFGRuleElement.uniqueStringVariables (e : MCFGRuleElement) : List SV :=
  e.string_variables.flatten

/-- Disjointness of the string-variable sets of two rule elements. -/
def svDisjoint (a b : List SV) : Bool :=
  a.all (fun v => !(b.contains v))

def pairwiseDisjoint : List (List SV) → Bool
  | [] => true
  | x :: xs => xs.all (fun y => svDisjoint x y) && pairwiseDisjoint xs

/-- `MCFGRule._validate` from `grammar.py` as a boolean: right-side
elements share no string variables, and for non-epsilon rules the set of
left-side variables equals the union of the right-side variables.  The
Python constructor raises `ValueError` when this fails, so every rule
object that exists in a run satisfies it. -/
def MCFGRule.validB (r : MCFGRule) : Bool :=
  pairwiseDisjoint (r.right_side.map MCFGRuleElement.uniqueStringVariables) &&
    (r.is_epsilon ||
      (r.left_side.uniqueStringVariables.all
          (fun v => (r.right_side.flatMap MCFGRuleElement.uniqueStringVariables).contains v) &&
        (r.right_side.flatMap MCFGRuleElement.uniqueStringVariables).all
          (fun v => r.left_side.uniqueStringVariables.contains v)))

/-- `MCFGRule._right_side_aligns`: same length, same variable names
pairwise, and each instance has as many spans as the declared element has
components. -/
def rightSideAligns (r : MCFGRule) (insts : List MCFGRuleElementInstance) : Bool :=
  insts.length == r.right_side.length &&
    ((r.right_side.zip insts).all fun p => p.1.var == p.2.var) &&
    ((r.right_side.zip insts).all fun p =>
      p.1.string_variables.length == p.2.string_spans.length)

/-- Sequence a list of optional values, failing on the first `none`
(models eager evaluation of a Python generator that can raise). -/
def collectSome {α : Type} : List (Option α) → Option (List α)
  | [] => some []
  | none :: _ => none
  | some a :: rest =>
    match collectSome rest with
    | none => none
    | some l => some (a :: l)

/-- One element's contribution to the span map: each component's first
string variable is mapped to the corresponding span (`strvar[0]` in the
source; `none` models the `IndexError` on an empty component tuple). -/
def pairEntries (e : MCFGRuleElement) (i : MCFGRuleElementInstance) :
    Option (List (SV × Span)) :=
  collectSome ((e.string_variables.zip i.string_spans).map fun p =>
    p.1.head?.map fun k => (k, p.2))

/-- The association list underlying `MCFGRule._build_span_map`'s dict, in
binding order. -/
def spanMapEntries (ps : List (MCFGRuleElement × MCFGRuleElementInstance)) :
    Option (List (SV × Span)) :=
  (collectSome (ps.map fun p => pairEntries p.1 p.2)).map List.flatten

/-- Dictionary lookup with Python semantics: the last binding of a key
wins.  `none` models a `KeyError`. -/
def dictLookup (m : List (SV × Span)) (k : SV) : Option Span :=
  (m.reverse.find? fun p => p.1 == k).map Prod.snd

/-- Result of `MCFGRule.instantiate_left_side`: a left-side instance, the
ordinary no-match value (Python `None`), the misalignment `ValueError`
raised by `_build_span_map`, or any other raised error (`KeyError` /
`IndexError`). -/
inductive InstResult where
  | ok : MCFGRuleElementInstance → InstResult
  | noMatch
  | alignError
  | otherError
deriving DecidableEq, Repr

/-- Result of the adjacency scan over one left-side component. -/
inductive ScanRes where
  | pass
  | noMatch
  | err
deriving DecidableEq, Repr

/-- The inner loop `for i in range(1, len(vs))` of
`instantiate_left_side`: walk consecutive pairs, look both spans up
(`KeyError` ⇒ `err`), and fail with no-match on the first non-adjacent
pair. -/
def adjScan (m : List (SV × Span)) : SV → List SV → ScanRes
  | _, [] => .pass
  | p, c :: rest =>
    match dictLookup m p with
    | none => .err
    | some sp =>
      match dictLookup m c with
      | none => .err
      | some sc => if sp.2 ≠ sc.1 then .noMatch else adjScan m c rest

/-- Result for a single left-side component. -/
inductive CompRes where
  | ok : Span → CompRes
  | noMatch
  | err
deriving DecidableEq, Repr

/-- Processing of one left-side component `vs`: adjacency scan, then the
concatenated span `(span_map[vs[0]][0], span_map[vs[-1]][1])`.  The empty
component raises `IndexError` on `vs[0]` in the source. -/
def compSpan (m : List (SV × Span)) (vs : List SV) : CompRes :=
  match vs with
  | [] => .err
  | v0 :: rest =>
    match adjScan m v0 rest with
    | .err => .err
    | .noMatch => .noMatch
    | .pass =>
      match dictLookup m v0 with
      | none => .err
      | some s0 =>
        match dictLookup m (rest.getLastD v0) with
        | none => .err
        | some sl => .ok (s0.1, sl.2)

/-- The loop over the left side's components, accumulating the new spans
in order. -/
def instantiateComps (v : String) (m : List (SV × Span)) :
    List (List SV) → List Span → InstResult
  | [], acc => .ok ⟨v, acc.reverse⟩
  | vs :: rest, acc =>
    match compSpan m vs with
    | .err => .otherError
    | .noMatch => .noMatch
    | .ok sp => instantiateComps v m rest (sp :: acc)

/-- The non-epsilon path of `instantiate_left_side`: build the span map
(raising the misalignment `ValueError` when `_right_side_aligns` fails)
and concatenate each left component. -/
def instantiateMain (r : MCFGRule) (insts : List MCFGRuleElementInstance) :
    InstResult :=
  if rightSideAligns r insts then
    match spanMapEntries (r.right_side.zip insts) with
    | none => .otherError
    | some m => instantiateComps r.left_side.var m r.left_side.string_variables []
  else .alignError

/-- `MCFGRule.instantiate_left_side` from `grammar.py`.  For epsilon
rules, if the incoming instances' variable names equal the left side's
literal tuple the instances' spans are passed through; otherwise (and for
all non-epsilon rules) control falls through to the span-map path. -/
def MCFGRule.instantiate_left_side (r : MCFGRule)
    (insts : List MCFGRuleElementInstance) : InstResult :=
  if r.is_epsilon then
    match collectSome (r.left_side.string_variables.map List.head?) with
    | none => .otherError
    | some strvars =>
      if strvars == insts.map fun i => SV.lit i.var then
        .ok ⟨r.left_side.var, insts.flatMap MCFGRuleElementInstance.string_spans⟩
      else instantiateMain r insts
  else instantiateMain r insts

/-- `MultipleContextFreeGrammar` from `grammar.py`.  Rules and start
variables are kept as lists: Python stores sets, whose iteration order is
arbitrary; the claims proved below do not depend on the order.  The
alphabet/variables fields play no role in the claims. -/
structure MultipleContextFreeGrammar where
  rules : List MCFGRule
  start_variables : List MCFGRuleElement

/-- `MultipleContextFreeGrammar.reduce`: all rules whose declared right
side aligns with the given instantiated right side. -/
def MultipleContextFreeGrammar.reduce (g : MultipleContextFreeGrammar)
    (insts : List MCFGRuleElementInstance) : List MCFGRule :=
  g.rules.filter fun r => rightSideAligns r insts

/-- An epsilon rule on which `rule.left_side.string_variables[0][0]`
raises `IndexError` (evaluated by `parts_of_speech` for every epsilon
rule). -/
def epsilonShapeBad (r : MCFGRule) : Bool :=
  r.is_epsilon &&
    (match r.left_side.string_variables.head? with
     | none => true
     | some c => c.isEmpty)

/-- Result of a Python call: normal return, raised exception, or (for the
agenda loop only) exhaustion of the modelling fuel. -/
inductive PyResult (α : Type) where
  | ok : α → PyResult α
  | exn
  | timeout
deriving DecidableEq, Repr

/-- `MultipleContextFreeGrammar.parts_of_speech`: the epsilon rules whose
single left literal equals `word`. -/
def MultipleContextFreeGrammar.parts_of_speech (g : MultipleContextFreeGrammar)
    (word : String) : PyResult (List MCFGRule) :=
  if g.rules.any epsilonShapeBad then .exn
  else
    .ok (g.rules.filter fun r =>
      r.is_epsilon &&
        (match r.left_side.string_variables.head?.bind List.head? with
         | some (SV.lit w) => w == word
         | _ => false))

/-! ## The agenda-based parser (`abparser.py`) -/

/-- The back-pointer field of a chart entry.  The source stores either the
marker `(None, None)` (lexical seed) or a single pair
`((id₀, name₀), (id₁, name₁))`; these are the only shapes it ever builds. -/
inductive BackPtr where
  | leaf
  | pair : Nat × String → Nat × String → BackPtr
deriving DecidableEq, Repr

/-- `ABEntry` from `abparser.py`: an instantiated symbol stamped with an
integer id (`index`) and back-pointers. -/
structure ABEntry where
  symbol : MCFGRuleElementInstance
  index : Nat
  backpointers : BackPtr
deriving DecidableEq, Repr

/-- The list comprehension
`[r.instantiate_left_side(a, b) for r in possible_rules]` followed by the
`is not None` filter; any raised error propagates. -/
def instantiateAll (insts : List MCFGRuleElementInstance) :
    List MCFGRule → PyResult (List MCFGRuleElementInstance)
  | [] => .ok []
  | r :: rest =>
    match r.instantiate_left_side insts with
    | .alignError => .exn
    | .otherError => .exn
    | .noMatch => instantiateAll insts rest
    | .ok i =>
      match instantiateAll insts rest with
      | .ok l => .ok (i :: l)
      | .exn => .exn
      | .timeout => .timeout

/-- `AgendaBasedParser._combine`: try `reduce(current, element)` first
(orientation 0), then `reduce(element, current)` (orientation 1).  The
Python `(0, None)` no-rule result is modelled as `(0, [])`, which the
caller treats identically (both are falsy). -/
def combine (g : MultipleContextFreeGrammar) (current element : ABEntry) :
    PyResult (Nat × List MCFGRuleElementInstance) :=
  let rules0 := g.reduce [current.symbol, element.symbol]
  if rules0.isEmpty then
    let rules1 := g.reduce [element.symbol, current.symbol]
    if rules1.isEmpty then .ok (0, [])
    else
      match instantiateAll [element.symbol, current.symbol] rules1 with
      | .ok l => .ok (1, l)
      | _ => .exn
  else
    match instantiateAll [current.symbol, element.symbol] rules0 with
    | .ok l => .ok (0, l)
    | _ => .exn

/-- New chart entries for the instances produced against one chart
element, with consecutive fresh ids starting at `nextId`. -/
def mkEntries (bp : BackPtr) : Nat → List MCFGRuleElementInstance → List ABEntry
  | _, [] => []
  | nextId, c :: cs => ⟨c, nextId, bp⟩ :: mkEntries bp (nextId + 1) cs

/-- The `for element in chart:` body of the main loop: combine `current`
with every chart element in order, numbering the produced entries with the
strictly increasing `next_id` counter. -/
def processChart (g : MultipleContextFreeGrammar) (current : ABEntry) :
    List ABEntry → Nat → PyResult (List ABEntry × Nat)
  | [], nid => .ok ([], nid)
  | e :: rest, nid =>
    match combine g current e with
    | .ok (rv, insts) =>
      let bp :=
        if rv == 1 then
          BackPtr.pair (e.index, e.symbol.var) (current.index, current.symbol.var)
        else
          BackPtr.pair (current.index, current.symbol.var) (e.index, e.symbol.var)
      match processChart g current rest (nid + insts.length) with
      | .ok (more, nid') => .ok (mkEntries bp nid insts ++ more, nid')
      | .exn => .exn
      | .timeout => .timeout
    | .exn => .exn
    | .timeout => .timeout

/-- The `while agenda:` loop of `_fill_chart`, with explicit fuel (the
source loop has no bound; every claim below is fuel-generic). -/
def fillChartLoop (g : MultipleContextFreeGrammar) :
    Nat → List ABEntry → List ABEntry → List Nat → Nat → PyResult (List ABEntry)
  | _, [], chart, _, _ => .ok chart
  | 0, _ :: _, _, _, _ => .timeout
  | fuel + 1, current :: rest, chart, chartIds, nextId =>
    match processChart g current chart nextId with
    | .ok (news, nextId') =>
      if chartIds.contains current.index then
        fillChartLoop g fuel (rest ++ news) chart chartIds nextId'
      else
        fillChartLoop g fuel (rest ++ news) (chart ++ [current])
          (current.index :: chartIds) nextId'
    | .exn => .exn
    | .timeout => .timeout

/-- Seed entries for one token: one entry per matching lexical rule,
instantiated with the phantom instance `(word, (idx, idx+1))`.  A
no-match result cannot occur here (the epsilon fallthrough path always
raises on a single phantom instance); errors propagate. -/
def seedWordRules (word : String) (idx : Nat) :
    List MCFGRule → PyResult (List ABEntry)
  | [] => .ok []
  | r :: rest =>
    match r.instantiate_left_side [⟨word, [(idx, idx + 1)]⟩] with
    | .ok i =>
      match seedWordRules word idx rest with
      | .ok l => .ok (⟨i, 0, .leaf⟩ :: l)
      | .exn => .exn
      | .timeout => .timeout
    | _ => .exn

/-- The seeding loop `for idx, word in enumerate(string)`. -/
def seedAll (g : MultipleContextFreeGrammar) :
    List (Nat × String) → PyResult (List ABEntry)
  | [] => .ok []
  | (idx, word) :: rest =>
    match g.parts_of_speech word with
    | .ok rules =>
      match seedWordRules word idx rules with
      | .ok l =>
        match seedAll g rest with
        | .ok l' => .ok (l ++ l')
        | .exn => .exn
        | .timeout => .timeout
      | .exn => .exn
      | .timeout => .timeout
    | .exn => .exn
    | .timeout => .timeout

/-- The reassignment loop `for n, e in enumerate(agenda): e._index = n`. -/
def reindex (l : List ABEntry) : List ABEntry :=
  l.enum.map fun p => { p.2 with index := p.1 }

/-- `AgendaBasedParser._fill_chart`.  When seeding produces no agenda
entries the statement `next_id = n + 1` reads the never-assigned loop
variable `n` and raises `UnboundLocalError`; this is the `.exn` branch on
the empty agenda (see the claim about empty inputs). -/
def fillChart (g : MultipleContextFreeGrammar) (s : List String) (fuel : Nat) :
    PyResult (List ABEntry) :=
  match seedAll g s.enum with
  | .ok agenda =>
    if agenda.isEmpty then .exn
    else fillChartLoop g fuel (reindex agenda) [] [] agenda.length
  | .exn => .exn
  | .timeout => .timeout

/-- The names of the grammar's start variables
(`{ele.variable for ele in self.grammar._start_variables}`). -/
def startNames (g : MultipleContextFreeGrammar) : List String :=
  g.start_variables.map MCFGRuleElement.var

/-- The acceptance test shared by `_recognize` and `_parse`: the entry's
variable is a start-variable name and its spans are exactly `((0, n),)`. -/
def isStartEntry (g : MultipleContextFreeGrammar) (n : Nat) (e : ABEntry) : Bool :=
  (startNames g).contains e.symbol.var && e.symbol.string_spans == [(0, n)]

/-- `AgendaBasedParser._recognize`. -/
def recognize (g : MultipleContextFreeGrammar) (s : List String) (fuel : Nat) :
    PyResult Bool :=
  match fillChart g s fuel with
  | .ok chart => .ok (chart.any (isStartEntry g s.length))
  | .exn => .exn
  | .timeout => .timeout

/-- `Tree` from `tree.py` (only the constructor shape matters for the
parser claims). -/
inductive ParseTree where
  | node : String → List ParseTree → ParseTree

/-- `AgendaBasedParser._get_item`: the first chart entry with the given
id, or `None`. -/
def get_item (chart : List ABEntry) (i : Nat) : Option ABEntry :=
  chart.find? fun e => e.index == i

/-- `AgendaBasedParser._construct_parses`, with fuel for the unbounded
recursion.  `none` models either a raised error (unresolvable id, bad
span) or fuel exhaustion; both are proved unreachable for charts built by
`fillChart` when the fuel exceeds the entry's id. -/
def construct_parses (s : List String) (chart : List ABEntry) :
    Nat → ABEntry → Option ParseTree
  | fuel, entry =>
    match entry.backpointers with
    | .leaf =>
      match entry.symbol.string_spans.head? with
      | none => none
      | some sp =>
        match s[sp.1]? with
        | none => none
        | some w => some (.node (entry.symbol.var ++ "(" ++ w ++ ")") [])
    | .pair p q =>
      match fuel with
      | 0 => none
      | fuel + 1 =>
        match get_item chart p.1 with
        | none => none
        | some e1 =>
          match construct_parses s chart fuel e1 with
          | none => none
          | some t1 =>
            match get_item chart q.1 with
            | none => none
            | some e2 =>
              match construct_parses s chart fuel e2 with
              | none => none
              | some t2 => some (.node entry.symbol.var [t1, t2])

/-- `AgendaBasedParser._parse`.  `ok none` is the Python `None` returned
(after printing) when no start entry covers the input; `ok (some ts)` is
the set of constructed trees (as a list). -/
def parse (g : MultipleContextFreeGrammar) (s : List String) (fuel : Nat) :
    PyResult (Option (List ParseTree)) :=
  match fillChart g s fuel with
  | .ok chart =>
    let starts := chart.filter (isStartEntry g s.length)
    if starts.isEmpty then .ok none
    else
      match collectSome (starts.map fun e => construct_parses s chart (e.index + 1) e) with
      | some ts => .ok (some ts)
      | none => .exn
  | .exn => .exn
  | .timeout => .timeout

/-! ## Chart invariants

The agenda loop maintains: the chart holds exactly the ids
`0, 1, …, |chart|−1` in order, the agenda continues with the next
`|agenda|` ids, and `next_id` is the total number of entries ever
created.  Every derived entry's back-pointers reference strictly smaller
ids; every seed entry's first span starts inside the input. -/

/-- Well-formedness of one entry relative to the input length `n`. -/
def bpOK (n : Nat) (e : ABEntry) : Prop :=
  match e.backpointers with
  | .leaf => ∃ sp tl, e.symbol.string_spans = sp :: tl ∧ sp.1 < n
  | .pair p q => p.1 < e.index ∧ q.1 < e.index

/-- The invariant of the `while agenda:` loop of `_fill_chart`. -/
def stateInv (n : Nat) (agenda chart : List ABEntry) (chartIds : List Nat)
    (nextId : Nat) : Prop :=
  chart.map ABEntry.index = List.range chart.length ∧
  agenda.map ABEntry.index = List.range' chart.length agenda.length ∧
  nextId = chart.length + agenda.length ∧
  (∀ i, chartIds.contains i = true ↔ i < chart.length) ∧
  (∀ e ∈ chart, bpOK n e) ∧
  (∀ e ∈ agenda, bpOK n e)

/-- A small calibration grammar: `S(01) -> A(0) B(1)`, `A(a)`, `B(b)`,
with start variable `S`; used as the concrete input of the witnesses. -/
def exampleGrammar : MultipleContextFreeGrammar :=
  ⟨[⟨⟨"S", [[.ix 0, .ix 1]]⟩, [⟨"A", [[.ix 0]]⟩, ⟨"B", [[.ix 1]]⟩]⟩,
    ⟨⟨"A", [[.lit "a"]]⟩, []⟩,
    ⟨⟨"B", [[.lit "b"]]⟩, []⟩],
   [⟨"S", [[.ix 0, .ix 1]]⟩]⟩

/-- The chart `_fill_chart` builds for `exampleGrammar` on `["a", "b"]`. -/
def exampleChart : List ABEntry :=
  [⟨⟨"A", [(0, 1)]⟩, 0, .leaf⟩,
   ⟨⟨"B", [(1, 2)]⟩, 1, .leaf⟩,
   ⟨⟨"S", [(0, 2)]⟩, 2, .pair (0, "A") (1, "B")⟩]

/-! ## Spec-side definitions for the instantiation claims

`claimAdjacent` and `claimCompSpan` transcribe the specification's
description of step 4 of `instantiate_left_side` ("for `i = 1…k`, require
`end(span_map[vᵢ₋₁]) == begin(span_map[vᵢ])`"; "emit the component span
`(begin(span_map[v₀]), end(span_map[vₖ]))`"); the theorems below compare
them with the code's behaviour. -/

/-- The claim's adjacency requirement over one left-side component. -/
def claimAdjacent (m : List (SV × Span)) (vs : List SV) : Bool :=
  (vs.zip vs.tail).all fun p =>
    match dictLookup m p.1, dictLookup m p.2 with
    | some a, some b => a.2 == b.1
    | _, _ => false

/-- The claim's span for one left-side component
`(begin(span_map[v₀]), end(span_map[vₖ]))`. -/
def claimCompSpan (m : List (SV × Span)) (vs : List SV) : Option Span :=
  match vs.head?.bind (dictLookup m), vs.getLast?.bind (dictLookup m) with
  | some a, some b => some (a.1, b.2)
  | _, _ => none

/-- A rule whose single right-side component carries two string
variables: `A` has components `(0)` and `(1)` but the span map only binds
the component-initial variable `0`.  Constructible (it passes
`_validate`). -/
def ruleMultiVarComp : MCFGRule :=
  ⟨⟨"A", [[.ix 0], [.ix 1]]⟩, [⟨"B", [[.ix 0, .ix 1]]⟩]⟩

/-- A valid rule whose left side has an empty component tuple. -/
def ruleEmptyLeftComp : MCFGRule :=
  ⟨⟨"A", [[.ix 0], []]⟩, [⟨"B", [[.ix 0]]⟩]⟩

/-- The instance `B([0, 2])`. -/
def instB02 : MCFGRuleElementInstance := ⟨"B", [(0, 2)]⟩

/-- The lexical rule `D(the)`. -/
def ruleLexThe : MCFGRule := ⟨⟨"D", [[.lit "the"]]⟩, []⟩

/-- A valid binary rule (`A(012) -> B(01) C(2)`) whose left component
chains a variable (`1`) that is not component-initial on the right side:
reachable from the parser's combine path, it makes `instantiate_left_side`
raise `KeyError`. -/
def ruleChainedComp : MCFGRule :=
  ⟨⟨"A", [[.ix 0, .ix 1, .ix 2]]⟩, [⟨"B", [[.ix 0, .ix 1]]⟩, ⟨"C", [[.ix 2]]⟩]⟩

/-- A grammar containing only `ruleChainedComp`. -/
def grammarChained : MultipleContextFreeGrammar := ⟨[ruleChainedComp], []⟩

/-- Rule `VPwhrc(1, 02) -> Vpres(0) Sbarwhrc(1, 2)` from the tests. -/
def ruleVPwhrc : MCFGRule :=
  ⟨⟨"VPwhrc", [[.ix 1], [.ix 0, .ix 2]]⟩,
   [⟨"Vpres", [[.ix 0]]⟩, ⟨"Sbarwhrc", [[.ix 1], [.ix 2]]⟩]⟩

/-- The instance `C([2, 3])`. -/
def instC23 : MCFGRuleElementInstance := ⟨"C", [(2, 3)]⟩

/-! ## `MCFGRule.from_string` and `MCFGRule.__str__`

`from_string` is driven by
`re.findall('(\\w+)\\(((?:\\w+,? ?)+?)\\)', rule_string)`, modelled here by
a matcher specialised to this pattern (ASCII word characters; the lazy
inner group is characterised by the fact that a match's second group may
only contain word characters, commas and blanks, so the first `)` after
the `(` is the only place it can close, and it closes there iff the
accumulated text decomposes as `(\\w+,? ?)+`, decided by the automaton
`g2Step`). -/

/-- `\w` (ASCII). -/
def isWordChar (c : Char) : Bool := c.isAlphanum || c == '_'

/-- A character the inner group `(?:\w+,? ?)+?` can consume. -/
def isG2Char (c : Char) : Bool := isWordChar c || c == ',' || c == ' '

/-- States of the automaton for `(\w+,? ?)+`: before the first word
character, inside a word, just after a comma, just after a blank. -/
inductive G2State where
  | expectW
  | inW
  | afterComma
  | afterSpace
deriving DecidableEq, Repr

def g2Step : G2State → Char → Option G2State
  | .expectW, c => if isWordChar c then some .inW else none
  | .inW, c =>
    if isWordChar c then some .inW
    else if c == ',' then some .afterComma
    else if c == ' ' then some .afterSpace
    else none
  | .afterComma, c =>
    if isWordChar c then some .inW
    else if c == ' ' then some .afterSpace
    else none
  | .afterSpace, c => if isWordChar c then some .inW else none

def g2Run : G2State → List Char → Option G2State
  | st, [] => some st
  | st, c :: rest =>
    match g2Step st c with
    | none => none
    | some st' => g2Run st' rest

/-- Whether `t` matches `(?:\w+,? ?)+` (at least one repetition). -/
def decomposable (t : List Char) : Bool :=
  match g2Run .expectW t with
  | some .expectW => false
  | some _ => true
  | none => false

/-- The lazy group-2 match starting right after `(`: accumulate the
admissible characters up to the first `)`; the match succeeds iff that
prefix decomposes.  Returns the group and the remainder after `)`. -/
def matchGroup2 : List Char → List Char → Option (List Char × List Char)
  | _, [] => none
  | acc, c :: rest =>
    if c == ')' then
      if decomposable acc.reverse then some (acc.reverse, rest) else none
    else if isG2Char c then matchGroup2 (c :: acc) rest
    else none

/-- One attempted match of the element pattern at the head of `s` (the
caller guarantees `s` starts with a word character): the maximal word run
(the backtracking on `\w+` is vacuous because a shorter run is followed
by a word character, not `(`), a literal `(`, the lazy group, `)`. -/
def tryMatch (s : List Char) : Option (List Char × List Char × List Char) :=
  match s.dropWhile isWordChar with
  | '(' :: rest2 =>
    (matchGroup2 [] rest2).map fun p => (s.takeWhile isWordChar, p.1, p.2)
  | _ => none

/-- `re.findall` scan for the element pattern, with fuel (the scan
advances at least one character per step; `findall1` supplies `s.length`,
which suffices). -/
def findall1Fuel : Nat → List Char → List (List Char × List Char)
  | 0, _ => []
  | _ + 1, [] => []
  | fuel + 1, c :: rest =>
    if isWordChar c then
      match tryMatch (c :: rest) with
      | some (g1, g2, rem) => (g1, g2) :: findall1Fuel fuel rem
      | none => findall1Fuel fuel rest
    else findall1Fuel fuel rest

/-- All matches of `(\w+)\(((?:\w+,? ?)+?)\)` in `s`, leftmost,
non-overlapping. -/
def findall1 (s : List Char) : List (List Char × List Char) :=
  findall1Fuel s.length s

/-- Python `str.split(',')`. -/
def splitOnComma : List Char → List (List Char)
  | [] => [[]]
  | c :: rest =>
    if c == ',' then [] :: splitOnComma rest
    else
      match splitOnComma rest with
      | [] => [[c]]
      | piece :: more => (c :: piece) :: more

/-- Python `str.strip()`. -/
def trimChars (l : List Char) : List Char :=
  ((l.dropWhile Char.isWhitespace).reverse.dropWhile Char.isWhitespace).reverse

/-- `[v.strip() for v in svs.split(',')]`. -/
def splitStrip (v : List Char) : List (List Char) :=
  (splitOnComma v).map trimChars

/-- The first alternative of `(n₁|n₂|…)` that matches at this position
(regex alternation is ordered; an empty alternative matches anywhere). -/
def firstAltMatch (names : List (List Char)) (t : List Char) :
    Option (List Char) :=
  names.find? fun nm => nm.isPrefixOf t

/-- `re.findall('(' + '|'.join(strvars) + ')', t)`: scan left to right; a
non-empty match advances past its text, an empty match and a failure
advance one character; an empty match is also tried at the end of the
string.  Fueled; `t.length + 1` suffices. -/
def findallAltFuel : Nat → List (List Char) → List Char → List (List Char)
  | 0, _, _ => []
  | _ + 1, names, [] =>
    match firstAltMatch names [] with
    | some nm => [nm]
    | none => []
  | fuel + 1, names, c :: rest =>
    match firstAltMatch names (c :: rest) with
    | some [] => [] :: findallAltFuel fuel names rest
    | some (d :: nm) =>
      (d :: nm) :: findallAltFuel fuel names ((c :: rest).drop (d :: nm).length)
    | none => findallAltFuel fuel names rest

def findallAlt (names : List (List Char)) (t : List Char) :
    List (List Char) :=
  findallAltFuel (t.length + 1) names t

/-- `MCFGRule.from_string` on a character list. -/
def fromStringChars (s : List Char) : Option MCFGRule :=
  match findall1 s with
  | [] => none
  | [(name, vars)] =>
    let r : MCFGRule :=
      ⟨⟨name.asString, [(splitStrip vars).map fun w => SV.lit w.asString]⟩, []⟩
    if r.validB then some r else none
  | (lname, lvars) :: rest =>
    let strvars := rest.flatMap fun p => splitStrip p.2
    if strvars.Nodup then
      let left : MCFGRuleElement :=
        ⟨lname.asString, (splitStrip lvars).map fun vs =>
          (findallAlt strvars vs).map fun v => SV.ix (strvars.indexOf v)⟩
      let rights := rest.map fun p =>
        (⟨p.1.asString,
          (splitStrip p.2).map fun v => [SV.ix (strvars.indexOf v)]⟩ :
          MCFGRuleElement)
      let r : MCFGRule := ⟨left, rights⟩
      if r.validB then some r else none
    else none

/-- `MCFGRule.from_string`: parse a rule from text; `none` models every
raised error (no element found, duplicated right-side variables,
validation failure). -/
def MCFGRule.from_string (s : String) : Option MCFGRule :=
  fromStringChars s.toList

/-- `str(v)` for a string variable (`str` of an int or of a string). -/
def svToChars : SV → List Char
  | .ix n => (Nat.repr n).toList
  | .lit s => s.toList

def intercalateChars (sep : List Char) : List (List Char) → List Char
  | [] => []
  | [x] => x
  | x :: y :: xs => x ++ sep ++ intercalateChars sep (y :: xs)

/-- `MCFGRuleElement.__str__`. -/
def elemToChars (e : MCFGRuleElement) : List Char :=
  e.var.toList ++ '(' :: (intercalateChars [',', ' ']
    (e.string_variables.map fun comp => comp.flatMap svToChars) ++ [')'])

def ruleToChars (r : MCFGRule) : List Char :=
  if r.is_epsilon then elemToChars r.left_side
  else
    elemToChars r.left_side ++ [' ', '-', '>', ' '] ++
      intercalateChars [' '] (r.right_side.map elemToChars)

/-- `MCFGRule.__str__`. -/
def ruleToString (r : MCFGRule) : String := (ruleToChars r).asString

/-- `str(i)` for a variable index, as characters. -/
def digitsL (i : Nat) : List Char := (Nat.repr i).toList

/-- The side condition of the amended round-trip claim: the parsed rule
is an epsilon rule with exactly one literal, or a non-epsilon rule with
at most ten right-side string variables and no empty left-side
component. -/
def roundTripCond (r : MCFGRule) : Bool :=
  if r.right_side.isEmpty then
    match r.left_side.string_variables with
    | [[SV.lit _]] => true
    | _ => false
  else
    (decide ((r.right_side.map fun e => e.string_variables.length).sum ≤ 10)) &&
      r.left_side.string_variables.all fun comp => !comp.isEmpty

/-- The rule parsed from `"D(a, b)"`: an epsilon rule with two literals
(its serialisation concatenates them into `"D(ab)"`). -/
def ruleEpsAB : MCFGRule := ⟨⟨"D", [[.lit "a", .lit "b"]]⟩, []⟩

/-- The rule parsed from `"A(x, uv) -> B(u, v)"`: its first left
component is empty (no right-side variable occurs in `x`), so it
serialises to `"A(, 01) -> B(0, 1)"`, which re-parses differently. -/
def ruleEmptyComp : MCFGRule :=
  ⟨⟨"A", [[], [.ix 0, .ix 1]]⟩, [⟨"B", [[.ix 0], [.ix 1]]⟩]⟩

/-- The rule parsed from `"A(uv) -> B(u) C(v)"`, a rule satisfying the
amended round-trip condition. -/
def ruleRT : MCFGRule :=
  ⟨⟨"A", [[.ix 0, .ix 1]]⟩, [⟨"B", [[.ix 0]]⟩, ⟨"C", [[.ix 1]]⟩]⟩

/-- An eleven-variable rule string: variable 10 serialises to the two
characters `"10"`, which the left side re-parses as `"1"`, `"0"`. -/
def elevenVarString : String :=
  "A(abcdefghijk) -> B(a, b, c, d, e, f, g, h, i, j, k)"

/-- The list of right-side string variables collected by `from_string`
(one block of each second group, in order). -/
def svarsOf (rest : List (List Char × List Char)) : List (List Char) :=
  rest.flatMap fun p => splitStrip p.2

/-- The right-side element `from_string` builds from one match. -/
def rightOf (rest : List (List Char × List Char))
    (p : List Char × List Char) : MCFGRuleElement :=
  ⟨p.1.asString,
    (splitStrip p.2).map fun v => [SV.ix ((svarsOf rest).indexOf v)]⟩

/-- The shape of every non-epsilon rule `from_string` returns: the left
components are lists of variable indices (`idss`), the right elements
come from the matches `rest`. -/
def ruleNE (lname : List Char) (idss : List (List Nat))
    (rest : List (List Char × List Char)) : MCFGRule :=
  ⟨⟨lname.asString, idss.map fun ids => ids.map SV.ix⟩,
    rest.map (rightOf rest)⟩

theorem mkEntries_map_index (bp : BackPtr) :
    ∀ (nid : Nat) (insts : List MCFGRuleElementInstance),
      (mkEntries bp nid insts).map ABEntry.index = List.range' nid insts.length
  | _, [] => rfl
  | nid, c :: cs => by
    simp only [mkEntries, List.map_cons, List.length_cons, List.range'_succ,
      mkEntries_map_index bp (nid + 1) cs]

theorem mkEntries_mem (bp : BackPtr) :
    ∀ (nid : Nat) (insts : List MCFGRuleElementInstance) (e : ABEntry),
      e ∈ mkEntries bp nid insts → e.backpointers = bp ∧ nid ≤ e.index
  | _, [], _, h => absurd h (by simp [mkEntries])
  | nid, c :: cs, e, h => by
    rw [mkEntries] at h
    rcases List.mem_cons.mp h with h | h
    · subst h; exact ⟨rfl, Nat.le_refl _⟩
    · obtain ⟨h1, h2⟩ := mkEntries_mem bp (nid + 1) cs e h
      exact ⟨h1, by omega⟩

theorem mkEntries_length (bp : BackPtr) (nid : Nat)
    (insts : List MCFGRuleElementInstance) :
    (mkEntries bp nid insts).length = insts.length := by
  have := congrArg List.length (mkEntries_map_index bp nid insts)
  simpa using this

theorem bpOK_mkEntries (n nid : Nat) (p q : Nat × String)
    (insts : List MCFGRuleElementInstance) (hp : p.1 < nid) (hq : q.1 < nid) :
    ∀ e ∈ mkEntries (BackPtr.pair p q) nid insts, bpOK n e := by
  intro e he
  obtain ⟨hbp, hid⟩ := mkEntries_mem _ _ _ _ he
  unfold bpOK
  rw [hbp]
  exact ⟨by omega, by omega⟩

theorem processChart_ok (g : MultipleContextFreeGrammar) (current : ABEntry)
    (n : Nat) :
    ∀ (chart : List ABEntry) (nid : Nat) (news : List ABEntry) (nid' : Nat),
      processChart g current chart nid = .ok (news, nid') →
      current.index < nid → (∀ e ∈ chart, e.index < nid) →
      nid' = nid + news.length ∧
      news.map ABEntry.index = List.range' nid news.length ∧
      (∀ e ∈ news, bpOK n e)
  | [], nid, news, nid', h, _, _ => by
    simp only [processChart, PyResult.ok.injEq, Prod.mk.injEq] at h
    obtain ⟨h1, h2⟩ := h
    subst h1; subst h2
    simp
  | el :: rest, nid, news, nid', h, hcur, hch => by
    have hel : el.index < nid := hch el (List.mem_cons_self el rest)
    have hrest : ∀ e ∈ rest, e.index < nid :=
      fun e he => hch e (List.mem_cons_of_mem el he)
    cases hcomb : combine g current el with
    | exn => simp [processChart, hcomb] at h
    | timeout => simp [processChart, hcomb] at h
    | ok p =>
      obtain ⟨rv, insts⟩ := p
      simp only [processChart, hcomb] at h
      cases hrec : processChart g current rest (nid + insts.length) with
      | exn => rw [hrec] at h; simp at h
      | timeout => rw [hrec] at h; simp at h
      | ok q =>
        obtain ⟨more, nid''⟩ := q
        rw [hrec] at h
        simp only [PyResult.ok.injEq, Prod.mk.injEq] at h
        obtain ⟨h1, h2⟩ := h
        have hcur' : current.index < nid + insts.length := by omega
        have hrest' : ∀ e ∈ rest, e.index < nid + insts.length := by
          intro e he; have := hrest e he; omega
        obtain ⟨ih1, ih2, ih3⟩ :=
          processChart_ok g current n rest (nid + insts.length) more nid'' hrec
            hcur' hrest'
        subst h1; subst h2
        refine ⟨?_, ?_, ?_⟩
        · rw [List.length_append, mkEntries_length]
          omega
        · rw [List.map_append, mkEntries_map_index, ih2, List.length_append,
            mkEntries_length]
          have harr := List.range'_append nid insts.length more.length 1
          simp only [Nat.one_mul] at harr
          rw [harr]
          congr 1
          omega
        · intro e he
          rcases List.mem_append.mp he with he | he
          · revert he
            split
            · exact fun he => bpOK_mkEntries n nid _ _ insts hel hcur e he
            · exact fun he => bpOK_mkEntries n nid _ _ insts hcur hel e he
          · exact ih3 e he

theorem fillChartLoop_ok (g : MultipleContextFreeGrammar) (n : Nat) :
    ∀ (fuel : Nat) (agenda chart : List ABEntry) (chartIds : List Nat)
      (nextId : Nat) (final : List ABEntry),
      stateInv n agenda chart chartIds nextId →
      fillChartLoop g fuel agenda chart chartIds nextId = .ok final →
      final.map ABEntry.index = List.range final.length ∧
        ∀ e ∈ final, bpOK n e := by
  intro fuel
  induction fuel with
  | zero =>
    intro agenda chart chartIds nextId final hinv h
    cases agenda with
    | nil =>
      simp only [fillChartLoop, PyResult.ok.injEq] at h
      subst h
      exact ⟨hinv.1, hinv.2.2.2.2.1⟩
    | cons current rest => exact absurd h (by simp [fillChartLoop])
  | succ fuel ih =>
    intro agenda chart chartIds nextId final hinv h
    cases agenda with
    | nil =>
      simp only [fillChartLoop, PyResult.ok.injEq] at h
      subst h
      exact ⟨hinv.1, hinv.2.2.2.2.1⟩
    | cons current rest =>
      obtain ⟨I1, I2, I3, I4, I5, I6⟩ := hinv
      simp only [List.length_cons] at I3
      simp only [List.map_cons, List.length_cons, List.range'_succ,
        List.cons.injEq] at I2
      obtain ⟨hcuridx, hrestidx⟩ := I2
      have hcur_lt : current.index < nextId := by
        rw [hcuridx, I3]; simp
      have hch_lt : ∀ e ∈ chart, e.index < nextId := by
        intro e he
        have hm : e.index ∈ chart.map ABEntry.index := List.mem_map_of_mem _ he
        rw [I1] at hm
        have := List.mem_range.mp hm
        omega
      cases hpc : processChart g current chart nextId with
      | exn => simp [fillChartLoop, hpc] at h
      | timeout => simp [fillChartLoop, hpc] at h
      | ok p =>
        obtain ⟨news, nextId'⟩ := p
        simp only [fillChartLoop, hpc] at h
        obtain ⟨P1, P2, P3⟩ :=
          processChart_ok g current n chart nextId news nextId' hpc hcur_lt hch_lt
        have hnotin : chartIds.contains current.index = false := by
          rcases hc : chartIds.contains current.index with _ | _
          · rfl
          · exact absurd ((I4 current.index).mp hc) (by omega)
        rw [hnotin] at h
        simp only [Bool.false_eq_true, if_false] at h
        refine ih (rest ++ news) (chart ++ [current])
          (current.index :: chartIds) nextId' final ?_ h
        refine ⟨?_, ?_, ?_, ?_, ?_, ?_⟩
        · simp only [List.map_append, List.map_cons, List.map_nil, I1,
            List.length_append, List.length_cons, List.length_nil, hcuridx]
          rw [List.range_succ]
        · have hnid : nextId = chart.length + 1 + rest.length := by omega
          simp only [List.map_append, hrestidx, P2, List.length_append,
            List.length_cons, List.length_nil]
          rw [hnid]
          have harr := List.range'_append (chart.length + 1) rest.length
            news.length 1
          simp only [Nat.one_mul] at harr
          rw [harr]
          congr 1
          omega
        · simp only [List.length_append, List.length_cons, List.length_nil]
          omega
        · intro i
          simp only [List.contains_cons, Bool.or_eq_true, beq_iff_eq, I4 i,
            hcuridx, List.length_append, List.length_cons, List.length_nil]
          omega
        · intro e he
          rcases List.mem_append.mp he with he | he
          · exact I5 e he
          · rcases List.mem_cons.mp he with he | he
            · subst he; exact I6 _ (List.mem_cons_self _ _)
            · exact absurd he (by simp)
        · intro e he
          rcases List.mem_append.mp he with he | he
          · exact I6 e (List.mem_cons_of_mem _ he)
          · exact P3 e he

theorem eps_instantiate_ok (r : MCFGRule) (i inst : MCFGRuleElementInstance)
    (hr : r.is_epsilon = true)
    (h : r.instantiate_left_side [i] = .ok inst) :
    inst.string_spans = i.string_spans := by
  have hempty : r.right_side = [] := by
    simpa [MCFGRule.is_epsilon, List.isEmpty_iff] using hr
  cases hm : collectSome (r.left_side.string_variables.map List.head?) with
  | none => simp [MCFGRule.instantiate_left_side, hr, hm] at h
  | some strvars =>
    simp only [MCFGRule.instantiate_left_side, hr, hm, if_true] at h
    split at h
    · simp only [InstResult.ok.injEq] at h
      subst h
      simp
    · exfalso
      simp [instantiateMain, rightSideAligns, hempty] at h

theorem seedWordRules_spec (word : String) (idx : Nat) :
    ∀ (rules : List MCFGRule) (l : List ABEntry),
      (∀ r ∈ rules, r.is_epsilon = true) →
      seedWordRules word idx rules = .ok l →
      ∀ e ∈ l, e.backpointers = .leaf ∧ e.symbol.string_spans = [(idx, idx + 1)]
  | [], l, _, h, e, he => by
    simp only [seedWordRules, PyResult.ok.injEq] at h
    subst h; exact absurd he (by simp)
  | r :: rest, l, heps, h, e, he => by
    cases hi : r.instantiate_left_side [⟨word, [(idx, idx + 1)]⟩] with
    | ok inst =>
      simp only [seedWordRules, hi] at h
      cases hr : seedWordRules word idx rest with
      | ok l' =>
        rw [hr] at h
        simp only [PyResult.ok.injEq] at h
        subst h
        rcases List.mem_cons.mp he with he | he
        · subst he
          refine ⟨rfl, ?_⟩
          have := eps_instantiate_ok r _ inst (heps r (by simp)) hi
          simpa using this
        · exact seedWordRules_spec word idx rest l'
            (fun r' hr' => heps r' (by simp [hr'])) hr e he
      | exn => rw [hr] at h; simp at h
      | timeout => rw [hr] at h; simp at h
    | noMatch => simp [seedWordRules, hi] at h
    | alignError => simp [seedWordRules, hi] at h
    | otherError => simp [seedWordRules, hi] at h

theorem parts_of_speech_eps (g : MultipleContextFreeGrammar) (word : String)
    (rules : List MCFGRule) (h : g.parts_of_speech word = .ok rules) :
    ∀ r ∈ rules, r.is_epsilon = true := by
  unfold MultipleContextFreeGrammar.parts_of_speech at h
  split at h
  · simp at h
  · simp only [PyResult.ok.injEq] at h
    subst h
    intro r hr
    have hf := (List.mem_filter.mp hr).2
    simp only [Bool.and_eq_true] at hf
    exact hf.1

theorem seedAll_spec (g : MultipleContextFreeGrammar) (n : Nat) :
    ∀ (l : List (Nat × String)) (agenda : List ABEntry),
      (∀ p ∈ l, p.1 < n) →
      seedAll g l = .ok agenda →
      ∀ e ∈ agenda, e.backpointers = .leaf ∧
        ∃ idx, idx < n ∧ e.symbol.string_spans = [(idx, idx + 1)]
  | [], agenda, _, h, e, he => by
    simp only [seedAll, PyResult.ok.injEq] at h
    subst h; exact absurd he (by simp)
  | (idx, word) :: rest, agenda, hbound, h, e, he => by
    cases hpos : g.parts_of_speech word with
    | ok rules =>
      simp only [seedAll, hpos] at h
      cases hsw : seedWordRules word idx rules with
      | ok l1 =>
        rw [hsw] at h
        cases hrest : seedAll g rest with
        | ok l2 =>
          rw [hrest] at h
          simp only [PyResult.ok.injEq] at h
          subst h
          rcases List.mem_append.mp he with he | he
          · obtain ⟨h1, h2⟩ := seedWordRules_spec word idx rules l1
              (parts_of_speech_eps g word rules hpos) hsw e he
            exact ⟨h1, idx, hbound (idx, word) (by simp), h2⟩
          · exact seedAll_spec g n rest l2
              (fun p hp => hbound p (by simp [hp])) hrest e he
        | exn => rw [hrest] at h; simp at h
        | timeout => rw [hrest] at h; simp at h
      | exn => rw [hsw] at h; simp at h
      | timeout => rw [hsw] at h; simp at h
    | exn => simp [seedAll, hpos] at h
    | timeout => simp [seedAll, hpos] at h

theorem reindex_map_index (l : List ABEntry) :
    (reindex l).map ABEntry.index = List.range l.length := by
  unfold reindex
  rw [List.map_map]
  have hc : (ABEntry.index ∘ fun p : Nat × ABEntry => { p.2 with index := p.1 })
      = Prod.fst := rfl
  rw [hc, List.enum_map_fst]

theorem reindex_length (l : List ABEntry) : (reindex l).length = l.length := by
  simp [reindex]

theorem reindex_mem (l : List ABEntry) (e : ABEntry) (he : e ∈ reindex l) :
    ∃ e₀ ∈ l, e.symbol = e₀.symbol ∧ e.backpointers = e₀.backpointers := by
  unfold reindex at he
  obtain ⟨⟨i, e₀⟩, hmem, heq⟩ := List.mem_map.mp he
  obtain ⟨hi, hx⟩ := List.mem_enum hmem
  refine ⟨e₀, ?_, by rw [← heq], by rw [← heq]⟩
  rw [hx]
  exact List.getElem_mem hi

/-- The two structural invariants of every chart returned by
`_fill_chart`: the entry ids are exactly `0, 1, …, |chart|−1` in order,
and every entry is back-pointer well-formed for the input length. -/
theorem fillChart_inv (g : MultipleContextFreeGrammar) (s : List String)
    (fuel : Nat) (chart : List ABEntry)
    (h : fillChart g s fuel = .ok chart) :
    chart.map ABEntry.index = List.range chart.length ∧
      ∀ e ∈ chart, bpOK s.length e := by
  unfold fillChart at h
  cases hseed : seedAll g s.enum with
  | exn => rw [hseed] at h; simp at h
  | timeout => rw [hseed] at h; simp at h
  | ok agenda =>
    simp only [hseed] at h
    by_cases hemp : agenda.isEmpty
    · rw [if_pos hemp] at h; simp at h
    · rw [if_neg hemp] at h
      refine fillChartLoop_ok g s.length fuel (reindex agenda) [] []
        agenda.length chart ?_ h
      have hseedspec := seedAll_spec g s.length s.enum agenda
        (fun p hp => (List.mem_enum hp).1) hseed
      refine ⟨rfl, ?_, ?_, ?_, ?_, ?_⟩
      · simpa [reindex_length, List.range_eq_range'] using reindex_map_index agenda
      · simp [reindex_length]
      · intro i; simp
      · intro e he; exact absurd he (by simp)
      · intro e he
        obtain ⟨e₀, h₀, hsym, hbp⟩ := reindex_mem agenda e he
        obtain ⟨hleaf, idx, hidx, hspans⟩ := hseedspec e₀ h₀
        unfold bpOK
        rw [hbp, hleaf]
        exact ⟨(idx, idx + 1), [], by rw [hsym, hspans], hidx⟩

theorem mem_index_lt (chart : List ABEntry)
    (hidx : chart.map ABEntry.index = List.range chart.length)
    (e : ABEntry) (he : e ∈ chart) : e.index < chart.length := by
  have hm : e.index ∈ chart.map ABEntry.index := List.mem_map_of_mem _ he
  rw [hidx] at hm
  exact List.mem_range.mp hm

theorem get_item_mem (chart : List ABEntry) (i : Nat)
    (hidx : chart.map ABEntry.index = List.range chart.length)
    (hi : i < chart.length) :
    ∃ e, get_item chart i = some e ∧ e ∈ chart ∧ e.index = i := by
  have hm : i ∈ chart.map ABEntry.index := by
    rw [hidx]; exact List.mem_range.mpr hi
  obtain ⟨e, he, heq⟩ := List.mem_map.mp hm
  have hsome : (chart.find? fun e' => e'.index == i).isSome := by
    rw [List.find?_isSome]
    exact ⟨e, he, by simp [heq]⟩
  obtain ⟨e', he'⟩ := Option.isSome_iff_exists.mp hsome
  refine ⟨e', he', List.mem_of_find?_eq_some he', ?_⟩
  simpa using List.find?_some he'

theorem construct_parses_isSome (s : List String) (chart : List ABEntry)
    (hidx : chart.map ABEntry.index = List.range chart.length)
    (hbp : ∀ e ∈ chart, bpOK s.length e) :
    ∀ (fuel : Nat) (e : ABEntry), e ∈ chart → e.index < fuel →
      (construct_parses s chart fuel e).isSome := by
  intro fuel
  induction fuel with
  | zero => intro e _ h; omega
  | succ fuel ih =>
    intro e he _
    have hb := hbp e he
    unfold bpOK at hb
    cases hbpe : e.backpointers with
    | leaf =>
      rw [hbpe] at hb
      obtain ⟨sp, tl, hspans, hlt⟩ := hb
      have hget : s[sp.1]? = some s[sp.1] := List.getElem?_eq_getElem hlt
      simp [construct_parses, hbpe, hspans, hget]
    | pair p q =>
      rw [hbpe] at hb
      obtain ⟨hp, hq⟩ := hb
      have helen : e.index < chart.length := mem_index_lt chart hidx e he
      obtain ⟨e1, hg1, hm1, hi1⟩ := get_item_mem chart p.1 hidx (by omega)
      obtain ⟨e2, hg2, hm2, hi2⟩ := get_item_mem chart q.1 hidx (by omega)
      have h1 := ih e1 hm1 (by omega)
      have h2 := ih e2 hm2 (by omega)
      obtain ⟨t1, ht1⟩ := Option.isSome_iff_exists.mp h1
      obtain ⟨t2, ht2⟩ := Option.isSome_iff_exists.mp h2
      simp [construct_parses, hbpe, hg1, hg2, ht1, ht2]

theorem collectSome_of_all_isSome {α β : Type} (f : β → Option α) :
    ∀ (l : List β), (∀ x ∈ l, (f x).isSome) →
      ∃ ys, collectSome (l.map f) = some ys ∧ ys.length = l.length
  | [], _ => ⟨[], rfl, rfl⟩
  | x :: rest, h => by
    obtain ⟨y, hy⟩ := Option.isSome_iff_exists.mp (h x (by simp))
    obtain ⟨ys, hys, hlen⟩ :=
      collectSome_of_all_isSome f rest (fun z hz => h z (by simp [hz]))
    refine ⟨y :: ys, ?_, by simp [hlen]⟩
    simp only [List.map_cons, hy, collectSome, hys]

/-! ## The claims about the parser -/

/-- C1: for every grammar and token sequence of length `n` (and any fuel),
the recognizer returns true iff the chart built by `_fill_chart` contains
an entry whose symbol's variable name is among the start-variable names
and whose span tuple is exactly `((0, n),)`. -/
theorem recognize_iff_start_entry (g : MultipleContextFreeGrammar)
    (s : List String) (fuel : Nat) (chart : List ABEntry)
    (h : fillChart g s fuel = .ok chart) :
    recognize g s fuel = .ok true ↔
      ∃ e ∈ chart, e.symbol.var ∈ startNames g ∧
        e.symbol.string_spans = [(0, s.length)] := by
  simp only [recognize, h, PyResult.ok.injEq, List.any_eq_true, isStartEntry,
    Bool.and_eq_true, beq_iff_eq, List.elem_iff]

/-- Witness for C1 at the calibration grammar on input `["a", "b"]`. -/
theorem recognize_iff_start_entry_witness :
    recognize exampleGrammar ["a", "b"] 10 = .ok true ↔
      ∃ e ∈ exampleChart, e.symbol.var ∈ startNames exampleGrammar ∧
        e.symbol.string_spans = [(0, (["a", "b"] : List String).length)] :=
  recognize_iff_start_entry exampleGrammar ["a", "b"] 10 exampleChart (by rfl)

/-- C2: recognition and parsing are consistent: `recognize` returns true
iff `parse` returns a non-empty tree collection, and when `recognize`
returns false, `parse` returns the signal-empty value (Python `None`). -/
theorem recognize_iff_parse_nonempty (g : MultipleContextFreeGrammar)
    (s : List String) (fuel : Nat) :
    (recognize g s fuel = .ok true ↔
      ∃ ts, parse g s fuel = .ok (some ts) ∧ ts ≠ []) ∧
    (recognize g s fuel = .ok false → parse g s fuel = .ok none) := by
  cases hfc : fillChart g s fuel with
  | exn => simp [recognize, parse, hfc]
  | timeout => simp [recognize, parse, hfc]
  | ok chart =>
    obtain ⟨hidx, hbp⟩ := fillChart_inv g s fuel chart hfc
    simp only [recognize, parse, hfc]
    by_cases hs : (chart.filter (isStartEntry g s.length)).isEmpty
    · rw [List.isEmpty_iff] at hs
      have hany : chart.any (isStartEntry g s.length) = false := by
        rw [← List.isEmpty_iff] at hs
        rw [Bool.eq_false_iff]
        intro hc
        obtain ⟨x, hx, hpx⟩ := List.any_eq_true.mp hc
        have hxm : x ∈ chart.filter (isStartEntry g s.length) :=
          List.mem_filter.mpr ⟨hx, hpx⟩
        rw [List.isEmpty_iff] at hs
        rw [hs] at hxm
        exact absurd hxm (by simp)
      rw [hany, hs]
      simp
    · rw [Bool.not_eq_true, List.isEmpty_eq_false] at hs
      have hfilfalse : (chart.filter (isStartEntry g s.length)).isEmpty = false := by
        rw [List.isEmpty_eq_false]; exact hs
      have hall : ∀ e ∈ chart.filter (isStartEntry g s.length),
          (construct_parses s chart (e.index + 1) e).isSome := by
        intro e he
        exact construct_parses_isSome s chart hidx hbp (e.index + 1) e
          (List.mem_filter.mp he).1 (by omega)
      obtain ⟨ts, hts, hlen⟩ := collectSome_of_all_isSome _ _ hall
      have hne : ts ≠ [] := by
        intro hnil
        rw [hnil] at hlen
        exact hs (List.length_eq_zero.mp hlen.symm)
      have hanyT : chart.any (isStartEntry g s.length) = true := by
        rw [List.any_eq_true]
        obtain ⟨x, hx⟩ := List.exists_mem_of_ne_nil _ hs
        have := List.mem_filter.mp hx
        exact ⟨x, this.1, this.2⟩
      rw [hanyT, hfilfalse, hts]
      simp only [Bool.false_eq_true, if_false]
      refine ⟨⟨fun _ => ⟨ts, rfl, hne⟩, fun _ => by trivial⟩, fun hcon => ?_⟩
      exact absurd hcon (by simp)

/-- Witness for C2: on the rejected input `["b", "a"]` the parser returns
the signal-empty value. -/
theorem recognize_iff_parse_nonempty_witness :
    parse exampleGrammar ["b", "a"] 10 = .ok none :=
  (recognize_iff_parse_nonempty exampleGrammar ["b", "a"] 10).2 (by rfl)

/-- C5 (code bug): on the empty token sequence, and on any input none of
whose words has a lexical rule, `_fill_chart` reads the unassigned loop
variable `n` in `next_id = n + 1` and raises `UnboundLocalError`; both
`recognize` and `parse` propagate the error instead of returning
false/empty as the specification states. -/
theorem recognize_empty_seed_raises :
    (∀ (g : MultipleContextFreeGrammar) (fuel : Nat),
        recognize g [] fuel = .exn ∧ parse g [] fuel = .exn) ∧
      recognize exampleGrammar ["zzz"] 10 = .exn ∧
      parse exampleGrammar ["zzz"] 10 = .exn :=
  ⟨fun _ _ => ⟨rfl, rfl⟩, rfl, rfl⟩

/-- C6: no two entries of a chart returned by `_fill_chart` share an id:
the ids are exactly `0, 1, …, |chart|−1` in order (seeds first, then the
strictly increasing `next_id` values), in particular pairwise distinct. -/
theorem fillChart_no_duplicate_ids (g : MultipleContextFreeGrammar)
    (s : List String) (fuel : Nat) (chart : List ABEntry)
    (h : fillChart g s fuel = .ok chart) :
    chart.map ABEntry.index = List.range chart.length ∧
      (chart.map ABEntry.index).Nodup := by
  have h1 := (fillChart_inv g s fuel chart h).1
  exact ⟨h1, h1 ▸ List.nodup_range _⟩

/-- Witness for C6. -/
theorem fillChart_no_duplicate_ids_witness :
    exampleChart.map ABEntry.index = List.range exampleChart.length ∧
      (exampleChart.map ABEntry.index).Nodup :=
  fillChart_no_duplicate_ids exampleGrammar ["a", "b"] 10 exampleChart (by rfl)

/-- C7: every id referenced by a back-pointer of a chart entry is the id
of an entry present in the chart, so `_get_item` resolution succeeds
during forest extraction. -/
theorem fillChart_backpointers_resolvable (g : MultipleContextFreeGrammar)
    (s : List String) (fuel : Nat) (chart : List ABEntry)
    (h : fillChart g s fuel = .ok chart) (e : ABEntry) (he : e ∈ chart)
    (p q : Nat × String) (hbpe : e.backpointers = .pair p q) :
    (∃ e1 ∈ chart, get_item chart p.1 = some e1 ∧ e1.index = p.1) ∧
      ∃ e2 ∈ chart, get_item chart q.1 = some e2 ∧ e2.index = q.1 := by
  obtain ⟨hidx, hbp⟩ := fillChart_inv g s fuel chart h
  have hb := hbp e he
  unfold bpOK at hb
  rw [hbpe] at hb
  have helen : e.index < chart.length := mem_index_lt chart hidx e he
  obtain ⟨e1, hg1, hm1, hi1⟩ := get_item_mem chart p.1 hidx (by omega)
  obtain ⟨e2, hg2, hm2, hi2⟩ := get_item_mem chart q.1 hidx (by omega)
  exact ⟨⟨e1, hm1, hg1, hi1⟩, ⟨e2, hm2, hg2, hi2⟩⟩

/-- Witness for C7 at the derived entry of the calibration chart. -/
theorem fillChart_backpointers_resolvable_witness :
    (∃ e1 ∈ exampleChart, get_item exampleChart 0 = some e1 ∧ e1.index = 0) ∧
      ∃ e2 ∈ exampleChart, get_item exampleChart 1 = some e2 ∧ e2.index = 1 :=
  fillChart_backpointers_resolvable exampleGrammar ["a", "b"] 10 exampleChart
    (by rfl) ⟨⟨"S", [(0, 2)]⟩, 2, .pair (0, "A") (1, "B")⟩ (by decide)
    (0, "A") (1, "B") rfl

/-- C10: each back-pointer id of a chart entry is strictly smaller than
the entry's own id, and consequently the recursion of
`_construct_parses` terminates (with fuel exceeding the entry's id it
returns a tree). -/
theorem fillChart_backpointers_decrease (g : MultipleContextFreeGrammar)
    (s : List String) (fuel : Nat) (chart : List ABEntry)
    (h : fillChart g s fuel = .ok chart) (e : ABEntry) (he : e ∈ chart) :
    (∀ p q, e.backpointers = .pair p q → p.1 < e.index ∧ q.1 < e.index) ∧
      (construct_parses s chart (e.index + 1) e).isSome := by
  obtain ⟨hidx, hbp⟩ := fillChart_inv g s fuel chart h
  constructor
  · intro p q hbpe
    have hb := hbp e he
    unfold bpOK at hb
    rw [hbpe] at hb
    exact hb
  · exact construct_parses_isSome s chart hidx hbp (e.index + 1) e he (by omega)

/-- Witness for C10 at the derived entry of the calibration chart. -/
theorem fillChart_backpointers_decrease_witness :
    (construct_parses ["a", "b"] exampleChart 3
      ⟨⟨"S", [(0, 2)]⟩, 2, .pair (0, "A") (1, "B")⟩).isSome :=
  (fillChart_backpointers_decrease exampleGrammar ["a", "b"] 10 exampleChart
    (by rfl) ⟨⟨"S", [(0, 2)]⟩, 2, .pair (0, "A") (1, "B")⟩ (by decide)).2

/-! ## The claims about rule instantiation -/

theorem getLast?_cons_getLastD {α : Type} (a : α) (l : List α) :
    (a :: l).getLast? = some (l.getLastD a) := by
  rw [List.getLast?_cons, ← List.getLastD_eq_getLast?]

theorem dictLookup_isSome_of_mem (m : List (SV × Span)) (v : SV)
    (h : ∃ sp, (v, sp) ∈ m) : (dictLookup m v).isSome := by
  obtain ⟨sp, hsp⟩ := h
  have hfind : (m.reverse.find? fun p => p.1 == v).isSome := by
    rw [List.find?_isSome]
    exact ⟨(v, sp), by simp [hsp], by simp⟩
  obtain ⟨x, hx⟩ := Option.isSome_iff_exists.mp hfind
  simp [dictLookup, hx]

theorem pairEntriesAux_spec :
    ∀ (comps : List (List SV)) (spans : List Span),
      comps.length = spans.length →
      (∀ c ∈ comps, c.length = 1) →
      ∃ pe, collectSome ((comps.zip spans).map fun p =>
          p.1.head?.map fun k => (k, p.2)) = some pe ∧
        ∀ v, (∃ c ∈ comps, v ∈ c) → ∃ sp, (v, sp) ∈ pe
  | [], [], _, _ => ⟨[], rfl, by simp⟩
  | [], _ :: _, h, _ => by simp at h
  | _ :: _, [], h, _ => by simp at h
  | c :: comps, s :: spans, h, hs => by
    have hc1 : c.length = 1 := hs c (by simp)
    obtain ⟨v0, hc⟩ : ∃ v0, c = [v0] := by
      cases c with
      | nil => simp at hc1
      | cons a t =>
        cases t with
        | nil => exact ⟨a, rfl⟩
        | cons b t' => simp at hc1
    obtain ⟨pe, hpe, hcov⟩ := pairEntriesAux_spec comps spans (by simpa using h)
      (fun c' hc' => hs c' (by simp [hc']))
    refine ⟨(v0, s) :: pe, ?_, ?_⟩
    · simp only [List.zip_cons_cons, List.map_cons, hc, List.head?_cons,
        Option.map_some', collectSome, hpe]
    · rintro v ⟨c', hc', hv⟩
      rcases List.mem_cons.mp hc' with hceq | hc'
      · subst hceq
        rw [hc] at hv
        rcases List.mem_singleton.mp hv with rfl
        exact ⟨s, by simp⟩
      · obtain ⟨sp, hsp⟩ := hcov v ⟨c', hc', hv⟩
        exact ⟨sp, by simp [hsp]⟩

theorem spanMapEntries_spec :
    ∀ (els : List MCFGRuleElement) (insts : List MCFGRuleElementInstance),
      els.length = insts.length →
      (∀ p ∈ els.zip insts,
        p.1.string_variables.length = p.2.string_spans.length) →
      (∀ el ∈ els, ∀ comp ∈ el.string_variables, comp.length = 1) →
      ∃ m, spanMapEntries (els.zip insts) = some m ∧
        ∀ v, (∃ el ∈ els, v ∈ el.uniqueStringVariables) → ∃ sp, (v, sp) ∈ m
  | [], [], _, _, _ => ⟨[], rfl, by simp⟩
  | [], _ :: _, h, _, _ => by simp at h
  | _ :: _, [], h, _, _ => by simp at h
  | el :: els, i :: insts, h, hlens, hsingle => by
    obtain ⟨pe, hpe, hcov1⟩ := pairEntriesAux_spec el.string_variables
      i.string_spans (hlens (el, i) (by simp)) (hsingle el (by simp))
    obtain ⟨m', hm', hcov2⟩ := spanMapEntries_spec els insts (by simpa using h)
      (fun p hp => hlens p (by simp [hp]))
      (fun e he => hsingle e (by simp [he]))
    refine ⟨pe ++ m', ?_, ?_⟩
    · unfold spanMapEntries at hm' ⊢
      cases hcs : collectSome ((els.zip insts).map fun p => pairEntries p.1 p.2) with
      | none => rw [hcs] at hm'; simp at hm'
      | some ms =>
        rw [hcs] at hm'
        simp only [Option.map_some', Option.some.injEq] at hm'
        have hpe' : pairEntries el i = some pe := hpe
        simp only [List.zip_cons_cons, List.map_cons, hpe', collectSome, hcs,
          Option.map_some', Option.some.injEq, List.flatten_cons, hm']
    · rintro v ⟨e', he', hv⟩
      rcases List.mem_cons.mp he' with hceq | he'
      · subst hceq
        obtain ⟨sp, hsp⟩ := hcov1 v (by
          simpa [MCFGRuleElement.uniqueStringVariables, List.mem_flatten] using hv)
        exact ⟨sp, List.mem_append_left _ hsp⟩
      · obtain ⟨sp, hsp⟩ := hcov2 v ⟨e', he', hv⟩
        exact ⟨sp, List.mem_append_right _ hsp⟩

theorem adjScan_spec (m : List (SV × Span)) :
    ∀ (rest : List SV) (v0 : SV),
      (∀ v ∈ v0 :: rest, (dictLookup m v).isSome) →
      (claimAdjacent m (v0 :: rest) = true → adjScan m v0 rest = .pass) ∧
      (claimAdjacent m (v0 :: rest) = false → adjScan m v0 rest = .noMatch)
  | [], v0, _ => by
    constructor
    · intro _; rfl
    · intro h; exact absurd h (by simp [claimAdjacent])
  | v1 :: rest, v0, htot => by
    obtain ⟨s0, h0⟩ := Option.isSome_iff_exists.mp (htot v0 (by simp))
    obtain ⟨s1, h1⟩ := Option.isSome_iff_exists.mp (htot v1 (by simp))
    have hCA : claimAdjacent m (v0 :: v1 :: rest) =
        ((s0.2 == s1.1) && claimAdjacent m (v1 :: rest)) := by
      simp [claimAdjacent, List.zip_cons_cons, h0, h1]
    have ih := adjScan_spec m rest v1
      (fun v hv => htot v (List.mem_cons_of_mem _ hv))
    simp only [adjScan, h0, h1]
    by_cases heq : s0.2 = s1.1
    · rw [if_neg (by simpa using heq)]
      rw [hCA]
      have hbeq : (s0.2 == s1.1) = true := by simpa using heq
      rw [hbeq, Bool.true_and]
      exact ih
    · rw [if_pos (by simpa using heq)]
      have hbeq : (s0.2 == s1.1) = false := by simpa using heq
      rw [hCA, hbeq, Bool.false_and]
      exact ⟨fun hc => absurd hc (by simp), fun _ => rfl⟩

theorem compSpan_spec (m : List (SV × Span)) (vs : List SV) (hne : vs ≠ [])
    (htot : ∀ v ∈ vs, (dictLookup m v).isSome) :
    ∃ sp, claimCompSpan m vs = some sp ∧
      compSpan m vs = (if claimAdjacent m vs then .ok sp else .noMatch) := by
  cases vs with
  | nil => exact absurd rfl hne
  | cons v0 rest =>
    obtain ⟨s0, h0⟩ := Option.isSome_iff_exists.mp (htot v0 (by simp))
    have hlast_mem : rest.getLastD v0 ∈ v0 :: rest := List.getLastD_mem_cons rest v0
    obtain ⟨sl, hl⟩ := Option.isSome_iff_exists.mp (htot _ hlast_mem)
    rw [List.getLastD_eq_getLast?] at hl
    have hclaim : claimCompSpan m (v0 :: rest) = some (s0.1, sl.2) := by
      simp [claimCompSpan, getLast?_cons_getLastD, h0, hl]
    obtain ⟨hpass, hfail⟩ := adjScan_spec m rest v0 htot
    refine ⟨(s0.1, sl.2), hclaim, ?_⟩
    by_cases hadj : claimAdjacent m (v0 :: rest) = true
    · rw [if_pos hadj]
      simp [compSpan, hpass hadj, h0, hl]
    · have hadj' : claimAdjacent m (v0 :: rest) = false :=
        Bool.eq_false_iff.mpr hadj
      rw [hadj']
      simp [compSpan, hfail hadj']

theorem instantiateComps_spec (v : String) (m : List (SV × Span)) :
    ∀ (comps : List (List SV)) (acc : List Span),
      (∀ vs ∈ comps, vs ≠ []) →
      (∀ vs ∈ comps, ∀ x ∈ vs, (dictLookup m x).isSome) →
      ∃ spans, collectSome (comps.map (claimCompSpan m)) = some spans ∧
        instantiateComps v m comps acc =
          (if comps.all (claimAdjacent m) then .ok ⟨v, acc.reverse ++ spans⟩
           else .noMatch)
  | [], acc, _, _ => ⟨[], rfl, by simp [instantiateComps]⟩
  | vs :: rest, acc, hne, htot => by
    obtain ⟨sp, hclaim, hcomp⟩ := compSpan_spec m vs (hne vs (by simp))
      (htot vs (by simp))
    obtain ⟨spans, hspans, hrest⟩ := instantiateComps_spec v m rest (sp :: acc)
      (fun x hx => hne x (by simp [hx])) (fun x hx => htot x (by simp [hx]))
    refine ⟨sp :: spans, ?_, ?_⟩
    · simp only [List.map_cons, hclaim, collectSome, hspans]
    · simp only [List.all_cons]
      by_cases hadj : claimAdjacent m vs = true
      · rw [if_pos hadj] at hcomp
        simp only [hadj, Bool.true_and, instantiateComps, hcomp]
        rw [hrest]
        by_cases hall : rest.all (claimAdjacent m) = true
        · simp [hall]
        · simp [Bool.eq_false_iff.mpr hall]
      · have hadj' : claimAdjacent m vs = false := Bool.eq_false_iff.mpr hadj
        simp only [hadj', Bool.false_eq_true, if_false] at hcomp
        simp only [hadj', Bool.false_and, Bool.false_eq_true, if_false,
          instantiateComps, hcomp]

theorem instantiate_aligned_characterization (r : MCFGRule)
    (insts : List MCFGRuleElementInstance)
    (hvalid : r.validB = true) (heps : r.is_epsilon = false)
    (hsingle : ∀ el ∈ r.right_side, ∀ comp ∈ el.string_variables,
      comp.length = 1)
    (hnonempty : ∀ comp ∈ r.left_side.string_variables, comp ≠ [])
    (halign : rightSideAligns r insts = true) :
    ∃ m spans,
      spanMapEntries (r.right_side.zip insts) = some m ∧
      collectSome (r.left_side.string_variables.map (claimCompSpan m)) =
        some spans ∧
      r.instantiate_left_side insts =
        (if r.left_side.string_variables.all (claimAdjacent m) then
          .ok ⟨r.left_side.var, spans⟩
        else .noMatch) := by
  have halign' := halign
  unfold rightSideAligns at halign'
  simp only [Bool.and_eq_true, beq_iff_eq, List.all_eq_true] at halign'
  obtain ⟨⟨hlen, _⟩, hcomplens⟩ := halign'
  obtain ⟨m, hm, hcov⟩ := spanMapEntries_spec r.right_side insts hlen.symm
    (fun p hp => by simpa using hcomplens p hp) hsingle
  have hv := hvalid
  unfold MCFGRule.validB at hv
  rw [heps] at hv
  simp only [Bool.false_or, Bool.and_eq_true, List.all_eq_true] at hv
  obtain ⟨_, hLR, _⟩ := hv
  have htot : ∀ comp ∈ r.left_side.string_variables, ∀ v ∈ comp,
      (dictLookup m v).isSome := by
    intro comp hcomp v hv'
    apply dictLookup_isSome_of_mem
    apply hcov
    have hvleft : v ∈ r.left_side.uniqueStringVariables := by
      simp only [MCFGRuleElement.uniqueStringVariables, List.mem_flatten]
      exact ⟨comp, hcomp, hv'⟩
    have hcontain := hLR v hvleft
    rw [List.elem_iff] at hcontain
    simpa [List.mem_flatMap] using hcontain
  obtain ⟨spans, hspans, hresult⟩ := instantiateComps_spec r.left_side.var m
    r.left_side.string_variables [] hnonempty htot
  refine ⟨m, spans, hm, hspans, ?_⟩
  unfold MCFGRule.instantiate_left_side
  rw [heps]
  simp only [Bool.false_eq_true, if_false]
  unfold instantiateMain
  simp only [halign, if_true, hm]
  simpa using hresult

theorem instantiateComps_ne_alignError (v : String) (m : List (SV × Span)) :
    ∀ (comps : List (List SV)) (acc : List Span),
      instantiateComps v m comps acc ≠ .alignError
  | [], acc => by simp [instantiateComps]
  | vs :: rest, acc => by
    simp only [instantiateComps]
    cases compSpan m vs with
    | ok sp => exact instantiateComps_ne_alignError v m rest (sp :: acc)
    | noMatch => simp
    | err => simp

/-- C3 counterexample: two rules that pass `_validate` and align with the
given instance, on which `instantiate_left_side` raises (`KeyError` on a
right-side component carrying two string variables; `IndexError` on an
empty left-side component) instead of producing the claimed left instance
or no-match. -/
theorem instantiate_aligned_spec_cex :
    ruleMultiVarComp.validB = true ∧
    rightSideAligns ruleMultiVarComp [instB02] = true ∧
    ruleMultiVarComp.instantiate_left_side [instB02] = .otherError ∧
    ruleEmptyLeftComp.validB = true ∧
    rightSideAligns ruleEmptyLeftComp [instB02] = true ∧
    ruleEmptyLeftComp.instantiate_left_side [instB02] = .otherError := by
  decide

/-- C3 (amended): for every valid non-epsilon rule whose right-side
components each carry exactly one string variable and whose left-side
components are non-empty (the shape produced by `from_string`), and every
aligning instance tuple, `instantiate_left_side` returns the left
instance whose component spans are
`(begin(span_map[v₀]), end(span_map[vₖ]))` when every adjacency
`end(span_map[vᵢ₋₁]) = begin(span_map[vᵢ])` holds, and the no-match value
when any adjacency fails. -/
theorem instantiate_aligned_spec (r : MCFGRule)
    (insts : List MCFGRuleElementInstance)
    (hvalid : r.validB = true) (heps : r.is_epsilon = false)
    (hsingle : ∀ el ∈ r.right_side, ∀ comp ∈ el.string_variables,
      comp.length = 1)
    (hnonempty : ∀ comp ∈ r.left_side.string_variables, comp ≠ [])
    (halign : rightSideAligns r insts = true) :
    ∃ m spans,
      spanMapEntries (r.right_side.zip insts) = some m ∧
      collectSome (r.left_side.string_variables.map (claimCompSpan m)) =
        some spans ∧
      r.instantiate_left_side insts =
        (if r.left_side.string_variables.all (claimAdjacent m) then
          .ok ⟨r.left_side.var, spans⟩
        else .noMatch) :=
  instantiate_aligned_characterization r insts hvalid heps hsingle hnonempty
    halign

/-- Witness for C3 at the rule `VPwhrc(1, 02) -> Vpres(0) Sbarwhrc(1, 2)`
with the instances of the repository's own test. -/
theorem instantiate_aligned_spec_witness :
    ∃ m spans,
      spanMapEntries (ruleVPwhrc.right_side.zip
        [⟨"Vpres", [(3, 4)]⟩, ⟨"Sbarwhrc", [(1, 2), (4, 7)]⟩]) = some m ∧
      collectSome (ruleVPwhrc.left_side.string_variables.map
        (claimCompSpan m)) = some spans ∧
      ruleVPwhrc.instantiate_left_side
          [⟨"Vpres", [(3, 4)]⟩, ⟨"Sbarwhrc", [(1, 2), (4, 7)]⟩] =
        (if ruleVPwhrc.left_side.string_variables.all (claimAdjacent m) then
          .ok ⟨ruleVPwhrc.left_side.var, spans⟩
        else .noMatch) :=
  instantiate_aligned_spec ruleVPwhrc
    [⟨"Vpres", [(3, 4)]⟩, ⟨"Sbarwhrc", [(1, 2), (4, 7)]⟩]
    (by decide) (by decide) (by decide) (by decide) (by decide)

/-- C4 counterexample: a misaligned instantiation (one instance against a
two-element right side) raises the `ValueError` of `_build_span_map`
instead of returning the no-match value. -/
theorem instantiate_misaligned_cex :
    rightSideAligns ruleVPwhrc [instB02] = false ∧
    ruleVPwhrc.instantiate_left_side [instB02] = .alignError := by
  decide

/-- C4 (amended): whenever the instances fail the alignment check and the
epsilon literal shortcut does not fire, `instantiate_left_side` raises
the misalignment `ValueError` (it does not return the no-match value;
no-match only arises from adjacency failures). -/
theorem instantiate_misaligned_raises (r : MCFGRule)
    (insts : List MCFGRuleElementInstance)
    (hshortcut : r.is_epsilon = true →
      ∃ strvars,
        collectSome (r.left_side.string_variables.map List.head?) =
          some strvars ∧
        strvars ≠ insts.map fun i => SV.lit i.var)
    (hal : rightSideAligns r insts = false) :
    r.instantiate_left_side insts = .alignError := by
  unfold MCFGRule.instantiate_left_side
  by_cases he : r.is_epsilon = true
  · obtain ⟨strvars, hsv, hne⟩ := hshortcut he
    simp only [he, if_true, hsv]
    rw [if_neg (by simpa using hne)]
    unfold instantiateMain
    simp [hal]
  · have he' : r.is_epsilon = false := Bool.eq_false_iff.mpr he
    simp only [he', Bool.false_eq_true, if_false]
    unfold instantiateMain
    simp [hal]

/-- Witness for C4: the lexical rule `D(the)` applied to a phantom
instance for the word `a`. -/
theorem instantiate_misaligned_raises_witness :
    MCFGRule.instantiate_left_side ruleLexThe [⟨"a", [(0, 1)]⟩] =
      .alignError :=
  instantiate_misaligned_raises ruleLexThe [⟨"a", [(0, 1)]⟩]
    (fun _ => ⟨[SV.lit "the"], rfl, by decide⟩) (by decide)

/-- C9 counterexample: a valid rule returned by `reduce` on which
`instantiate_left_side` raises `KeyError` (it returns neither a left
instance nor no-match): the rule's left component chains the variable `1`,
which is not component-initial on the right side, so the span map does
not bind it. -/
theorem reduce_instantiate_key_error_cex :
    ruleChainedComp.validB = true ∧
    ruleChainedComp ∈ grammarChained.reduce [instB02, instC23] ∧
    ruleChainedComp.instantiate_left_side [instB02, instC23] = .otherError := by
  decide

/-- C9 (amended): for every pair of instances and every rule returned by
`Grammar.reduce` on them, `instantiate_left_side` never raises the
misalignment error of `_build_span_map` (the alignment filter makes that
branch unreachable); and for rules in chart normal form (singleton
right-side components, non-empty left components) the call returns a left
instance or no-match.  (A `KeyError` remains possible for other valid
rules — see the counterexample.) -/
theorem reduce_instantiate_no_align_error (g : MultipleContextFreeGrammar)
    (a b : MCFGRuleElementInstance) (r : MCFGRule)
    (hr : r ∈ g.reduce [a, b]) :
    r.instantiate_left_side [a, b] ≠ .alignError ∧
    (r.validB = true →
      (∀ el ∈ r.right_side, ∀ comp ∈ el.string_variables,
        comp.length = 1) →
      (∀ comp ∈ r.left_side.string_variables, comp ≠ []) →
      (∃ i, r.instantiate_left_side [a, b] = .ok i) ∨
        r.instantiate_left_side [a, b] = .noMatch) := by
  have hal : rightSideAligns r [a, b] = true := by
    have := List.mem_filter.mp hr
    exact this.2
  have heps : r.is_epsilon = false := by
    have hlen := hal
    unfold rightSideAligns at hlen
    simp only [Bool.and_eq_true, beq_iff_eq, List.length_cons,
      List.length_nil] at hlen
    obtain ⟨⟨hlen2, _⟩, _⟩ := hlen
    unfold MCFGRule.is_epsilon
    rw [List.isEmpty_eq_false]
    intro hnil
    rw [hnil] at hlen2
    simp at hlen2
  constructor
  · unfold MCFGRule.instantiate_left_side
    simp only [heps, Bool.false_eq_true, if_false]
    unfold instantiateMain
    simp only [hal, if_true]
    cases spanMapEntries (r.right_side.zip [a, b]) with
    | none => simp
    | some m => exact instantiateComps_ne_alignError _ _ _ _
  · intro hvalid hsingle hnonempty
    obtain ⟨m, spans, _, _, hres⟩ := instantiate_aligned_characterization r
      [a, b] hvalid heps hsingle hnonempty hal
    by_cases hc : r.left_side.string_variables.all (claimAdjacent m) = true
    · exact Or.inl ⟨_, by rw [hres, if_pos hc]⟩
    · exact Or.inr (by rw [hres, if_neg hc])

/-- Witness for C9 at the calibration grammar's binary rule. -/
theorem reduce_instantiate_no_align_error_witness :
    MCFGRule.instantiate_left_side
        ⟨⟨"S", [[.ix 0, .ix 1]]⟩, [⟨"A", [[.ix 0]]⟩, ⟨"B", [[.ix 1]]⟩]⟩
        [⟨"A", [(0, 1)]⟩, ⟨"B", [(1, 2)]⟩] ≠ .alignError :=
  (reduce_instantiate_no_align_error exampleGrammar ⟨"A", [(0, 1)]⟩
    ⟨"B", [(1, 2)]⟩
    ⟨⟨"S", [[.ix 0, .ix 1]]⟩, [⟨"A", [[.ix 0]]⟩, ⟨"B", [[.ix 1]]⟩]⟩
    (by decide)).1

/-! ## The round-trip claim: matcher lemmas -/

theorem toList_asString (l : List Char) : l.asString.toList = l := rfl

theorem asString_injective (a b : List Char) (h : a.asString = b.asString) :
    a = b := by
  have := congrArg String.toList h
  simpa [toList_asString] using this

theorem isG2Char_ne_rpar (c : Char) (h : isG2Char c = true) : ¬c = ')' := by
  intro hc
  subst hc
  simp [isG2Char, isWordChar] at h

theorem isWordChar_isG2Char (c : Char) (h : isWordChar c = true) :
    isG2Char c = true := by
  simp [isG2Char, h]

theorem matchGroup2_some_shape :
    ∀ (s acc g2 rest : List Char), matchGroup2 acc s = some (g2, rest) →
      ∃ t, s = t ++ ')' :: rest ∧ g2 = acc.reverse ++ t ∧
        (∀ c ∈ t, isG2Char c = true) ∧ decomposable g2 = true
  | [], acc, g2, rest, h => by simp [matchGroup2] at h
  | c :: s, acc, g2, rest, h => by
    rw [matchGroup2] at h
    by_cases hc : c = ')'
    · subst hc
      simp only [beq_self_eq_true, if_true] at h
      by_cases hd : decomposable acc.reverse = true
      · rw [if_pos hd] at h
        simp only [Option.some.injEq, Prod.mk.injEq] at h
        obtain ⟨h1, h2⟩ := h
        exact ⟨[], by simp [h2], by simp [h1], by simp, h1 ▸ hd⟩
      · rw [if_neg hd] at h
        exact absurd h (by simp)
    · rw [if_neg (by simpa using hc)] at h
      by_cases hg2 : isG2Char c = true
      · rw [if_pos hg2] at h
        obtain ⟨t, ht, hg, hall, hdec⟩ :=
          matchGroup2_some_shape s (c :: acc) g2 rest h
        refine ⟨c :: t, by simp [ht], ?_, ?_, hdec⟩
        · rw [hg]; simp
        · intro x hx
          rcases List.mem_cons.mp hx with hx | hx
          · subst hx; exact hg2
          · exact hall x hx
      · rw [if_neg hg2] at h
        exact absurd h (by simp)

theorem matchGroup2_closes :
    ∀ (t acc rest : List Char), (∀ c ∈ t, isG2Char c = true) →
      decomposable (acc.reverse ++ t) = true →
      matchGroup2 acc (t ++ ')' :: rest) = some (acc.reverse ++ t, rest)
  | [], acc, rest, _, hdec => by
    rw [List.nil_append, matchGroup2]
    simp only [beq_self_eq_true, if_true]
    rw [if_pos (by simpa using hdec)]
    simp
  | c :: t, acc, rest, hall, hdec => by
    have hc : isG2Char c = true := hall c (by simp)
    rw [List.cons_append, matchGroup2]
    rw [if_neg (by simpa using isG2Char_ne_rpar c hc), if_pos hc]
    have := matchGroup2_closes t (c :: acc) rest
      (fun x hx => hall x (by simp [hx])) (by simpa using hdec)
    rw [this]
    simp

theorem takeWhile_dropWhile_concat (p : Char → Bool) :
    ∀ (xs : List Char) (y : Char) (ys : List Char),
      (∀ c ∈ xs, p c = true) → p y = false →
      (xs ++ y :: ys).takeWhile p = xs ∧ (xs ++ y :: ys).dropWhile p = y :: ys
  | [], y, ys, _, hy => by simp [List.takeWhile, List.dropWhile, hy]
  | x :: xs, y, ys, hall, hy => by
    have hx : p x = true := hall x (by simp)
    obtain ⟨h1, h2⟩ := takeWhile_dropWhile_concat p xs y ys
      (fun c hc => hall c (by simp [hc])) hy
    constructor
    · rw [List.cons_append, List.takeWhile_cons, hx]
      simp [h1]
    · rw [List.cons_append, List.dropWhile_cons, hx]
      simpa using h2

theorem tryMatch_concat (name inner rest : List Char)
    (hname : ∀ c ∈ name, isWordChar c = true)
    (hinner : ∀ c ∈ inner, isG2Char c = true)
    (hdec : decomposable inner = true) :
    tryMatch (name ++ '(' :: (inner ++ ')' :: rest)) =
      some (name, inner, rest) := by
  obtain ⟨htake, hdrop⟩ := takeWhile_dropWhile_concat isWordChar name '('
    (inner ++ ')' :: rest) hname (by decide)
  have hmg := matchGroup2_closes inner [] rest hinner (by simpa using hdec)
  simp only [List.reverse_nil, List.nil_append] at hmg
  unfold tryMatch
  split
  case h_1 rest2 heq =>
    rw [hdrop] at heq
    injection heq with h1 h2
    subst h2
    rw [hmg, htake]
    rfl
  case h_2 heq =>
    exact absurd hdrop (heq _)

theorem tryMatch_some_shape (s : List Char) (g1 g2 rem : List Char)
    (h : tryMatch s = some (g1, g2, rem)) :
    s = g1 ++ '(' :: (g2 ++ ')' :: rem) ∧ g1 = s.takeWhile isWordChar ∧
      (∀ c ∈ g1, isWordChar c = true) ∧ (∀ c ∈ g2, isG2Char c = true) ∧
      decomposable g2 = true := by
  unfold tryMatch at h
  split at h
  case h_2 => simp at h
  case h_1 rest1 hdrop =>
    cases hmg : matchGroup2 [] rest1 with
    | none => rw [hmg] at h; simp at h
    | some p =>
      obtain ⟨g2', rest'⟩ := p
      rw [hmg] at h
      simp only [Option.map_some', Option.some.injEq, Prod.mk.injEq] at h
      obtain ⟨h1, h2, h3⟩ := h
      obtain ⟨t, ht, hg, hall, hdec⟩ :=
        matchGroup2_some_shape rest1 [] g2' rest' hmg
      simp only [List.reverse_nil, List.nil_append] at hg
      subst hg
      subst h2
      subst h3
      subst h1
      refine ⟨?_, rfl, ?_, hall, hdec⟩
      · have hs := List.takeWhile_append_dropWhile (p := isWordChar) (l := s)
        rw [hdrop, ht] at hs
        exact hs.symm
      · intro c hc
        exact List.mem_takeWhile_imp hc

theorem tryMatch_rem_lt (s g1 g2 rem : List Char)
    (h : tryMatch s = some (g1, g2, rem)) : rem.length + 2 ≤ s.length := by
  obtain ⟨hs, _⟩ := tryMatch_some_shape s g1 g2 rem h
  rw [hs]
  simp
  omega

theorem findall1Fuel_congr :
    ∀ (fuel1 fuel2 : Nat) (s : List Char), s.length ≤ fuel1 →
      s.length ≤ fuel2 → findall1Fuel fuel1 s = findall1Fuel fuel2 s := by
  intro fuel1
  induction fuel1 with
  | zero =>
    intro fuel2 s h1 _
    have hs : s = [] := List.length_eq_zero.mp (by omega)
    subst hs
    cases fuel2 <;> rfl
  | succ f1 ih =>
    intro fuel2 s h1 h2
    cases s with
    | nil => cases fuel2 <;> rfl
    | cons c rest =>
      cases fuel2 with
      | zero => simp at h2
      | succ f2 =>
        simp only [List.length_cons] at h1 h2
        simp only [findall1Fuel]
        by_cases hw : isWordChar c = true
        · rw [if_pos hw, if_pos hw]
          cases htm : tryMatch (c :: rest) with
          | none => exact ih f2 rest (by omega) (by omega)
          | some p =>
            obtain ⟨g1, g2, rem⟩ := p
            have hlt := tryMatch_rem_lt _ _ _ _ htm
            simp only [List.length_cons] at hlt
            exact congrArg _ (ih f2 rem (by omega) (by omega))
        · rw [if_neg hw, if_neg hw]
          exact ih f2 rest (by omega) (by omega)

theorem findall1_skip (c : Char) (rest : List Char)
    (hc : isWordChar c = false) : findall1 (c :: rest) = findall1 rest := by
  unfold findall1
  simp only [List.length_cons, findall1Fuel, hc, Bool.false_eq_true, if_false]

theorem findall1_elem (name inner rest : List Char) (hname0 : name ≠ [])
    (hname : ∀ c ∈ name, isWordChar c = true)
    (hinner : ∀ c ∈ inner, isG2Char c = true)
    (hdec : decomposable inner = true) :
    findall1 (name ++ '(' :: (inner ++ ')' :: rest)) =
      (name, inner) :: findall1 rest := by
  cases name with
  | nil => exact absurd rfl hname0
  | cons c nm =>
    have hc : isWordChar c = true := hname c (by simp)
    have htm : tryMatch (c :: (nm ++ '(' :: (inner ++ ')' :: rest))) =
        some (c :: nm, inner, rest) := by
      have := tryMatch_concat (c :: nm) inner rest hname hinner hdec
      simpa using this
    unfold findall1
    simp only [List.cons_append, List.length_cons, findall1Fuel,
      List.append_eq, hc, if_true, htm]
    refine congrArg _ (findall1Fuel_congr _ _ rest ?_ (le_refl _))
    simp only [List.length_append, List.length_cons]
    omega

theorem findall1Fuel_shape :
    ∀ (fuel : Nat) (s : List Char) (p : List Char × List Char),
      p ∈ findall1Fuel fuel s →
      p.1 ≠ [] ∧ (∀ c ∈ p.1, isWordChar c = true) ∧
        (∀ c ∈ p.2, isG2Char c = true) ∧ decomposable p.2 = true := by
  intro fuel
  induction fuel with
  | zero => intro s p h; simp [findall1Fuel] at h
  | succ f ih =>
    intro s p h
    cases s with
    | nil => simp [findall1Fuel] at h
    | cons c rest =>
      simp only [findall1Fuel] at h
      by_cases hw : isWordChar c = true
      · rw [if_pos hw] at h
        cases htm : tryMatch (c :: rest) with
        | none => rw [htm] at h; exact ih rest p h
        | some q =>
          obtain ⟨g1, g2, rem⟩ := q
          rw [htm] at h
          rcases List.mem_cons.mp h with h | h
          · subst h
            obtain ⟨hs, hg1, hw1, hg2, hdec⟩ := tryMatch_some_shape _ _ _ _ htm
            refine ⟨?_, hw1, hg2, hdec⟩
            rw [hg1]
            simp [List.takeWhile_cons, hw]
          · exact ih rem p h
      · rw [if_neg hw] at h
        exact ih rest p h

theorem findall1_shape (s : List Char) (p : List Char × List Char)
    (h : p ∈ findall1 s) :
    p.1 ≠ [] ∧ (∀ c ∈ p.1, isWordChar c = true) ∧
      (∀ c ∈ p.2, isG2Char c = true) ∧ decomposable p.2 = true :=
  findall1Fuel_shape s.length s p h

/-! ## Splitting and stripping lemmas -/

theorem splitOnComma_ne_nil : ∀ (l : List Char), splitOnComma l ≠ []
  | [] => by simp [splitOnComma]
  | c :: rest => by
    rw [splitOnComma]
    split
    · simp
    · split <;> simp

theorem splitOnComma_no_comma : ∀ (l : List Char),
    (∀ c ∈ l, ¬c = ',') → splitOnComma l = [l]
  | [], _ => rfl
  | c :: rest, h => by
    rw [splitOnComma,
      if_neg (by simp only [beq_iff_eq]; exact h c (by simp)),
      splitOnComma_no_comma rest (fun x hx => h x (by simp [hx]))]

theorem splitOnComma_block : ∀ (b rest : List Char),
    (∀ c ∈ b, ¬c = ',') →
    splitOnComma (b ++ ',' :: rest) = b :: splitOnComma rest
  | [], rest, _ => by simp [splitOnComma]
  | c :: b, rest, h => by
    rw [List.cons_append, splitOnComma,
      if_neg (by simp only [beq_iff_eq]; exact h c (by simp)),
      splitOnComma_block b rest (fun x hx => h x (by simp [hx]))]

theorem dropWhile_eq_self_of_head (p : Char → Bool) :
    ∀ (l : List Char), (∀ c, l.head? = some c → p c = false) →
      l.dropWhile p = l
  | [], _ => rfl
  | c :: rest, h => by
    rw [List.dropWhile_cons, h c rfl]
    simp

theorem head?_dropWhile_false (p : Char → Bool) :
    ∀ (l : List Char) (c : Char), (l.dropWhile p).head? = some c → p c = false
  | [], c, h => by simp [List.dropWhile] at h
  | a :: rest, c, h => by
    rw [List.dropWhile_cons] at h
    by_cases ha : p a = true
    · rw [if_pos ha] at h
      exact head?_dropWhile_false p rest c h
    · rw [if_neg ha] at h
      simp only [List.head?_cons, Option.some.injEq] at h
      subst h
      exact Bool.eq_false_iff.mpr ha

theorem trimChars_no_ws (l : List Char)
    (h : ∀ c ∈ l, c.isWhitespace = false) : trimChars l = l := by
  unfold trimChars
  rw [dropWhile_eq_self_of_head _ l
    (fun c hc => h c (List.mem_of_mem_head? hc))]
  rw [dropWhile_eq_self_of_head _ l.reverse
    (fun c hc => h c (by
      have hm : c ∈ l.reverse := List.mem_of_mem_head? hc
      simpa using hm))]
  simp

theorem trimChars_cons_ws (c : Char) (l : List Char)
    (h : c.isWhitespace = true) : trimChars (c :: l) = trimChars l := by
  unfold trimChars
  rw [List.dropWhile_cons, if_pos h]

theorem trimChars_prefix_head (l : List Char) :
    ∀ c, (trimChars l).head? = some c →
      (l.dropWhile Char.isWhitespace).head? = some c := by
  intro c hc
  unfold trimChars at hc
  have hsuf : ((l.dropWhile Char.isWhitespace).reverse.dropWhile
      Char.isWhitespace) <:+ (l.dropWhile Char.isWhitespace).reverse :=
    List.dropWhile_suffix _
  have hpre : ((l.dropWhile Char.isWhitespace).reverse.dropWhile
      Char.isWhitespace).reverse <+: (l.dropWhile Char.isWhitespace) := by
    rw [← List.reverse_suffix]
    simpa using hsuf
  obtain ⟨tail, htail⟩ := hpre
  rw [← htail]
  cases hh : ((l.dropWhile Char.isWhitespace).reverse.dropWhile
      Char.isWhitespace).reverse with
  | nil => rw [hh] at hc; simp at hc
  | cons a t =>
    rw [hh] at hc
    simp only [List.head?_cons, Option.some.injEq] at hc
    subst hc
    simp

theorem trimChars_idem (l : List Char) :
    trimChars (trimChars l) = trimChars l := by
  have h1 : (trimChars l).dropWhile Char.isWhitespace = trimChars l := by
    apply dropWhile_eq_self_of_head
    intro c hc
    exact head?_dropWhile_false _ l c (trimChars_prefix_head l c hc)
  have h2 : ((trimChars l).reverse).dropWhile Char.isWhitespace =
      (trimChars l).reverse := by
    apply dropWhile_eq_self_of_head
    intro c hc
    unfold trimChars at hc
    rw [List.reverse_reverse] at hc
    exact head?_dropWhile_false _ _ c hc
  unfold trimChars
  rw [show trimChars l = (trimChars l) from rfl] at h1 h2
  unfold trimChars at h1 h2
  rw [h1, h2]
  simp

theorem mem_trimChars (l : List Char) (c : Char) (h : c ∈ trimChars l) :
    c ∈ l := by
  unfold trimChars at h
  rw [List.mem_reverse] at h
  have h2 := (List.dropWhile_suffix Char.isWhitespace).mem h
  rw [List.mem_reverse] at h2
  exact (List.dropWhile_suffix Char.isWhitespace).mem h2

/-! ## Automaton lemmas for `(\w+,? ?)+` -/

theorem splitOnComma_singleton : ∀ (l x : List Char),
    splitOnComma l = [x] → x = l ∧ ∀ c ∈ l, ¬c = ','
  | [], x, h => by
    simp only [splitOnComma, List.cons.injEq] at h
    exact ⟨h.1.symm, by simp⟩
  | c :: rest, x, h => by
    rw [splitOnComma] at h
    by_cases hc : c = ','
    · subst hc
      rw [if_pos (by simp)] at h
      simp only [List.cons.injEq] at h
      exact absurd h.2 (splitOnComma_ne_nil rest)
    · rw [if_neg (by simpa using hc)] at h
      cases hr : splitOnComma rest with
      | nil => exact absurd hr (splitOnComma_ne_nil rest)
      | cons piece more =>
        rw [hr] at h
        simp only [List.cons.injEq] at h
        obtain ⟨hx, hmore⟩ := h
        subst hmore
        obtain ⟨hp, hnc⟩ := splitOnComma_singleton rest piece hr
        subst hp
        refine ⟨hx.symm, ?_⟩
        intro d hd
        rcases List.mem_cons.mp hd with hd | hd
        · subst hd; exact hc
        · exact hnc d hd

theorem splitStrip_cons_space (I : List Char) :
    splitStrip (' ' :: I) = splitStrip I := by
  unfold splitStrip
  rw [splitOnComma]
  rw [if_neg (by decide)]
  cases hr : splitOnComma I with
  | nil => exact absurd hr (splitOnComma_ne_nil I)
  | cons piece more =>
    simp only [List.map_cons, trimChars_cons_ws ' ' piece (by decide)]

theorem wordChar_not_ws (c : Char) (h : isWordChar c = true) :
    c.isWhitespace = false := by
  by_contra hw
  rw [Bool.not_eq_false] at hw
  simp only [Char.isWhitespace, Bool.or_eq_true, decide_eq_true_eq] at hw
  rcases hw with ((h1 | h1) | h1) | h1 <;> subst h1 <;> revert h <;> decide

theorem g2Run_append : ∀ (a b : List Char) (st : G2State),
    g2Run st (a ++ b) = match g2Run st a with
      | none => none
      | some st1 => g2Run st1 b
  | [], b, st => by simp [g2Run]
  | c :: a, b, st => by
    rw [List.cons_append, g2Run]
    cases hs : g2Step st c with
    | none => simp [g2Run, hs]
    | some st1 => simp only [g2Run, hs, g2Run_append a b st1]

theorem g2Step_inW (st : G2State) (c : Char)
    (h : g2Step st c = some .inW) : isWordChar c = true := by
  cases st <;> simp only [g2Step] at h <;> split_ifs at h with h1 h2 h3 <;>
    first
      | exact h1
      | simp at h

theorem g2Step_afterComma (st : G2State) (c : Char)
    (h : g2Step st c = some .afterComma) : c = ',' := by
  cases st <;> simp only [g2Step] at h <;> split_ifs at h with h1 h2 h3 <;>
    first
      | (try simp only [beq_iff_eq] at h2); exact h2
      | simp at h

theorem g2Step_afterSpace (st : G2State) (c : Char)
    (h : g2Step st c = some .afterSpace) : c = ' ' := by
  cases st <;> simp only [g2Step] at h <;> split_ifs at h with h1 h2 h3 <;>
    first
      | (try simp only [beq_iff_eq] at h2); exact h2
      | (try simp only [beq_iff_eq] at h3); exact h3
      | simp at h

theorem g2Step_ne_expectW (st : G2State) (c : Char) (st1 : G2State)
    (h : g2Step st c = some st1) : ¬st1 = .expectW := by
  cases st <;> simp only [g2Step] at h <;> split_ifs at h <;>
    simp only [Option.some.injEq] at h <;> subst h <;> simp

theorem g2Step_space (st : G2State) (st1 : G2State)
    (h : g2Step st ' ' = some st1) :
    (st = .inW ∨ st = .afterComma) ∧ st1 = .afterSpace := by
  revert h
  cases st <;> cases st1 <;> decide

theorem g2Run_words : ∀ (b : List Char), b ≠ [] →
    (∀ c ∈ b, isWordChar c = true) → ∀ st, g2Run st b = some .inW
  | [], h, _, _ => absurd rfl h
  | [c], _, hw, st => by
    have h1 : g2Step st c = some .inW := by
      cases st <;> simp [g2Step, hw c (by simp)]
    simp [g2Run, h1]
  | c :: d :: rest, _, hw, st => by
    have h1 : g2Step st c = some .inW := by
      cases st <;> simp [g2Step, hw c (by simp)]
    simp only [g2Run, h1]
    exact g2Run_words (d :: rest) (by simp) (fun x hx => hw x (by simp [hx])) _

theorem g2Run_words_join : ∀ (bs : List (List Char)), bs ≠ [] →
    (∀ b ∈ bs, b ≠ [] ∧ ∀ c ∈ b, isWordChar c = true) →
    ∀ st, g2Run st (intercalateChars [',', ' '] bs) = some .inW
  | [], h, _, _ => absurd rfl h
  | [b], _, hb, st => by
    rw [intercalateChars]
    exact g2Run_words b (hb b (by simp)).1 (hb b (by simp)).2 st
  | b :: b2 :: bs, _, hb, st => by
    rw [intercalateChars]
    have h1 : g2Run st b = some .inW :=
      g2Run_words b (hb b (by simp)).1 (hb b (by simp)).2 st
    rw [List.append_assoc, g2Run_append, h1]
    show g2Run .inW (',' :: ' ' :: intercalateChars [',', ' '] (b2 :: bs)) =
      some .inW
    have h2 : g2Step .inW ',' = some .afterComma := by decide
    have h3 : g2Step .afterComma ' ' = some .afterSpace := by decide
    simp only [g2Run, h2, h3]
    exact g2Run_words_join (b2 :: bs) (by simp)
      (fun x hx => hb x (by simp [hx])) _

theorem decomposable_eq_true_iff (t : List Char) :
    decomposable t = true ↔
      ∃ st, g2Run .expectW t = some st ∧ ¬st = G2State.expectW := by
  unfold decomposable
  cases h : g2Run .expectW t with
  | none => simp
  | some st => cases st <;> simp

theorem decomposable_words_join (bs : List (List Char)) (h0 : bs ≠ [])
    (hb : ∀ b ∈ bs, b ≠ [] ∧ ∀ c ∈ b, isWordChar c = true) :
    decomposable (intercalateChars [',', ' '] bs) = true := by
  rw [decomposable_eq_true_iff]
  exact ⟨.inW, g2Run_words_join bs h0 hb .expectW, by simp⟩

theorem decomposable_ne_nil (t : List Char) (h : decomposable t = true) :
    t ≠ [] := by
  intro ht
  subst ht
  simp [decomposable, g2Run] at h

theorem decomposable_head_word (c : Char) (t : List Char)
    (h : decomposable (c :: t) = true) : isWordChar c = true := by
  rw [decomposable_eq_true_iff] at h
  obtain ⟨st, hrun, _⟩ := h
  rw [g2Run] at hrun
  cases hs : g2Step .expectW c with
  | none => rw [hs] at hrun; simp at hrun
  | some st1 =>
    simp only [g2Step] at hs
    by_cases hw : isWordChar c = true
    · exact hw
    · rw [if_neg hw] at hs; simp at hs

theorem g2Run_single (st : G2State) (c : Char) :
    g2Run st [c] = g2Step st c := by
  cases hs : g2Step st c <;> simp [g2Run, hs]

theorem trimChars_eq_self (t : List Char)
    (h1 : ∀ c, t.head? = some c → c.isWhitespace = false)
    (h2 : ∀ c, t.getLast? = some c → c.isWhitespace = false) :
    trimChars t = t := by
  unfold trimChars
  rw [dropWhile_eq_self_of_head _ t h1]
  rw [dropWhile_eq_self_of_head _ t.reverse
    (fun c hc => h2 c (by rwa [List.head?_reverse] at hc))]
  simp

theorem trimChars_decomposable (t : List Char)
    (h : decomposable t = true) :
    trimChars t = t ∨
      ∃ t1, t = t1 ++ [' '] ∧ trimChars t = t1 ∧ decomposable t1 = true := by
  have hne := decomposable_ne_nil t h
  obtain ⟨c, t0, ht⟩ : ∃ c t0, t = c :: t0 := by
    cases t with
    | nil => exact absurd rfl hne
    | cons c t0 => exact ⟨c, t0, rfl⟩
  have hhead : ∀ x, t.head? = some x → x.isWhitespace = false := by
    intro x hx
    rw [ht] at hx
    simp only [List.head?_cons, Option.some.injEq] at hx
    subst hx
    exact wordChar_not_ws c (decomposable_head_word c t0 (ht ▸ h))
  rcases List.eq_nil_or_concat t with h0 | ⟨t1, d, ht1⟩
  · exact absurd h0 hne
  · rw [List.concat_eq_append] at ht1
    have hrun := (decomposable_eq_true_iff t).mp h
    obtain ⟨st, hst, hstne⟩ := hrun
    rw [ht1, g2Run_append] at hst
    cases hr1 : g2Run .expectW t1 with
    | none => rw [hr1] at hst; simp at hst
    | some st1 =>
      rw [hr1] at hst
      simp only at hst
      rw [g2Run_single] at hst
      have hs : g2Step st1 d = some st := hst
      by_cases hd : d = ' '
      · subst hd
        obtain ⟨hst1, _⟩ := g2Step_space st1 st hs
        have hdec1 : decomposable t1 = true := by
          rw [decomposable_eq_true_iff]
          refine ⟨st1, hr1, ?_⟩
          rcases hst1 with h' | h' <;> subst h' <;> simp
        have ht1ne : t1 ≠ [] := by
          intro h0
          subst h0
          simp only [g2Run, Option.some.injEq] at hr1
          rcases hst1 with h' | h' <;> rw [← hr1] at h' <;> simp at h'
        obtain ⟨t2, e, ht2⟩ : ∃ t2 e, t1 = t2 ++ [e] := by
          rcases List.eq_nil_or_concat t1 with h0 | ⟨t2, e, h0⟩
          · exact absurd h0 ht1ne
          · exact ⟨t2, e, by simpa [List.concat_eq_append] using h0⟩
        have hews : e.isWhitespace = false := by
          rw [ht2, g2Run_append] at hr1
          cases hr2 : g2Run .expectW t2 with
          | none => rw [hr2] at hr1; simp at hr1
          | some st3 =>
            rw [hr2] at hr1
            simp only at hr1
            rw [g2Run_single] at hr1
            rcases hst1 with h' | h'
            · rw [h'] at hr1
              exact wordChar_not_ws e (g2Step_inW st3 e hr1)
            · rw [h'] at hr1
              rw [g2Step_afterComma st3 e hr1]
              decide
        refine Or.inr ⟨t1, ht1, ?_, hdec1⟩
        unfold trimChars
        rw [dropWhile_eq_self_of_head _ t (fun x hx => hhead x hx)]
        rw [ht1, List.reverse_append]
        show (List.dropWhile Char.isWhitespace (' ' :: t1.reverse)).reverse = t1
        rw [List.dropWhile_cons, if_pos (by decide)]
        rw [dropWhile_eq_self_of_head _ t1.reverse
          (fun x hx => by
            rw [List.head?_reverse, ht2, List.getLast?_concat] at hx
            simp only [Option.some.injEq] at hx
            subst hx
            exact hews)]
        simp
      · left
        apply trimChars_eq_self t hhead
        intro x hx
        rw [ht1, List.getLast?_concat] at hx
        simp only [Option.some.injEq] at hx
        subst hx
        cases hst2 : st with
        | expectW => exact absurd hst2 hstne
        | inW =>
          rw [hst2] at hs
          exact wordChar_not_ws d (g2Step_inW st1 d hs)
        | afterComma =>
          rw [hst2] at hs
          rw [g2Step_afterComma st1 d hs]
          decide
        | afterSpace =>
          rw [hst2] at hs
          exact absurd (g2Step_afterSpace st1 d hs) hd

/-! ## Digit serialisation lemmas -/

theorem digitsL_eq : ∀ i < 10, digitsL i = [Nat.digitChar i] := by decide

theorem digitsL_len : ∀ i < 10, (digitsL i).length = 1 := by decide

theorem digitsL_word : ∀ i < 10, ∀ c ∈ digitsL i, isWordChar c = true := by
  decide

theorem digitsL_inj : ∀ i < 10, ∀ j < 10, digitsL i = digitsL j → i = j := by
  decide

theorem digitChar_inj : ∀ i < 10, ∀ j < 10,
    Nat.digitChar i = Nat.digitChar j → i = j := by decide

theorem find?_range_unique (p : Nat → Bool) (m : Nat) :
    ∀ (i : Nat), i < m → (∀ j, j < m → (p j = true ↔ j = i)) →
      (List.range m).find? p = some i := by
  induction m with
  | zero => intro i h _; omega
  | succ n ih =>
    intro i hi hp
    rw [List.range_succ, List.find?_append]
    by_cases hin : i < n
    · rw [ih i hin (fun j hj => hp j (by omega))]
      rfl
    · have hie : i = n := by omega
      subst hie
      have hnone : (List.range i).find? p = none := by
        rw [List.find?_eq_none]
        intro x hx
        rw [List.mem_range] at hx
        intro hpx
        have := (hp x (by omega)).mp hpx
        omega
      rw [hnone]
      have hpn : p i = true := (hp i (by omega)).mpr rfl
      simp [List.find?_cons, hpn]

theorem digitsL_isPrefixOf (i j : Nat) (hi : i < 10) (hj : j < 10)
    (rest : List Char) :
    (digitsL j).isPrefixOf (digitsL i ++ rest) = true ↔ j = i := by
  rw [digitsL_eq i hi, digitsL_eq j hj]
  constructor
  · intro h
    simp only [List.cons_append, List.nil_append, List.isPrefixOf,
      Bool.and_eq_true, beq_iff_eq] at h
    exact digitChar_inj j hj i hi h.1
  · intro h
    subst h
    simp [List.isPrefixOf]

theorem firstAltMatch_digits (m : Nat) (hm : m ≤ 10) (i : Nat) (hi : i < m)
    (rest : List Char) :
    firstAltMatch ((List.range m).map fun j => digitsL j)
      (digitsL i ++ rest) = some (digitsL i) := by
  unfold firstAltMatch
  rw [List.find?_map]
  have h1 : (List.range m).find?
      ((fun nm => nm.isPrefixOf (digitsL i ++ rest)) ∘ fun j => digitsL j) =
      some i := by
    apply find?_range_unique _ m i hi
    intro j hj
    show (digitsL j).isPrefixOf (digitsL i ++ rest) = true ↔ j = i
    exact digitsL_isPrefixOf i j (lt_of_lt_of_le hi hm)
      (lt_of_lt_of_le hj hm) rest
  rw [h1]
  rfl

theorem firstAltMatch_digits_nil (m : Nat) (hm : m ≤ 10) :
    firstAltMatch ((List.range m).map fun j => digitsL j) [] = none := by
  unfold firstAltMatch
  rw [List.find?_eq_none]
  intro x hx
  rw [List.mem_map] at hx
  obtain ⟨j, hj, hxe⟩ := hx
  rw [List.mem_range] at hj
  subst hxe
  rw [digitsL_eq j (by omega)]
  simp [List.isPrefixOf]

theorem findallAltFuel_digits (m : Nat) (hm : m ≤ 10) :
    ∀ (ids : List Nat) (fuel : Nat), (∀ i ∈ ids, i < m) →
      ids.length < fuel →
      findallAltFuel fuel ((List.range m).map fun j => digitsL j)
        (ids.flatMap fun i => digitsL i) = ids.map fun i => digitsL i
  | [], fuel, _, hf => by
    obtain ⟨f, rfl⟩ : ∃ f, fuel = f + 1 := ⟨fuel - 1, by omega⟩
    simp only [List.flatMap_nil, List.map_nil, findallAltFuel,
      firstAltMatch_digits_nil m hm]
  | i :: ids, fuel, hlt, hf => by
    obtain ⟨f, rfl⟩ : ∃ f, fuel = f + 1 := ⟨fuel - 1, by omega⟩
    have hi : i < m := hlt i (by simp)
    simp only [List.flatMap_cons, List.map_cons]
    have hfam := firstAltMatch_digits m hm i hi
      (ids.flatMap fun x => digitsL x)
    rw [digitsL_eq i (by omega)] at hfam ⊢
    simp only [List.cons_append, List.nil_append] at hfam ⊢
    simp only [findallAltFuel, hfam, List.length_cons, List.length_nil,
      List.drop_succ_cons, List.drop_zero]
    refine congrArg _ (findallAltFuel_digits m hm ids f
      (fun x hx => hlt x (by simp [hx])) ?_)
    simp only [List.length_cons] at hf
    omega

theorem flatMap_digitsL_length : ∀ (ids : List Nat),
    (∀ i ∈ ids, i < 10) →
    (ids.flatMap fun i => digitsL i).length = ids.length
  | [], _ => rfl
  | i :: ids, h => by
    simp only [List.flatMap_cons, List.length_append, List.length_cons,
      flatMap_digitsL_length ids (fun x hx => h x (by simp [hx]))]
    have h1 : (digitsL i).length = 1 := digitsL_len i (h i (by simp))
    omega

theorem findallAlt_digits (m : Nat) (hm : m ≤ 10) (ids : List Nat)
    (h : ∀ i ∈ ids, i < m) :
    findallAlt ((List.range m).map fun j => digitsL j)
      (ids.flatMap fun i => digitsL i) = ids.map fun i => digitsL i := by
  unfold findallAlt
  apply findallAltFuel_digits m hm ids _ h
  rw [flatMap_digitsL_length ids (fun i hi => lt_of_lt_of_le (h i hi) hm)]
  omega

theorem indexOf_getElem_nodup : ∀ (l : List (List Char)), l.Nodup →
    ∀ (n : Nat) (hn : n < l.length), l.indexOf (l.get ⟨n, hn⟩) = n
  | [], _, n, hn => absurd hn (by simp)
  | b :: l, _, 0, _ => by
    show (b :: l).indexOf b = 0
    simp [List.indexOf, List.findIdx_cons]
  | b :: l, h, n + 1, hn => by
    have hn1 : n < l.length := by simpa using hn
    have hmem : l.get ⟨n, hn1⟩ ∈ l := l.get_mem n hn1
    have hne : ¬(b == l.get ⟨n, hn1⟩) = true := by
      rw [beq_iff_eq]
      intro he
      rw [List.nodup_cons] at h
      exact h.1 (he ▸ hmem)
    show (b :: l).indexOf (l.get ⟨n, hn1⟩) = n + 1
    simp only [List.indexOf, List.findIdx_cons]
    rw [Bool.cond_eq_if, if_neg hne]
    exact congrArg (· + 1)
      (indexOf_getElem_nodup l (List.nodup_cons.mp h).2 n hn1)

theorem indexOf_lt_of_mem : ∀ (l : List (List Char)) (a : List Char),
    a ∈ l → l.indexOf a < l.length
  | [], a, h => absurd h (by simp)
  | b :: l, a, h => by
    simp only [List.indexOf, List.findIdx_cons]
    rw [Bool.cond_eq_if]
    by_cases he : (b == a) = true
    · rw [if_pos he]; simp
    · rw [if_neg he]
      have hmem : a ∈ l := by
        rcases List.mem_cons.mp h with h1 | h1
        · exfalso
          apply he
          rw [beq_iff_eq]
          exact h1.symm
        · exact h1
      have h2 := indexOf_lt_of_mem l a hmem
      simp only [List.indexOf] at h2
      simp only [List.length_cons]
      omega

theorem nodup_map_indexOf (l : List (List Char)) (h : l.Nodup) :
    (l.map fun v => l.indexOf v) = List.range l.length := by
  apply List.ext_getElem
  · simp
  · intro n h1 h2
    simp only [List.getElem_map, List.getElem_range]
    have h3 : n < l.length := by simpa using h1
    have h4 := indexOf_getElem_nodup l h n h3
    simpa using h4

theorem digits_nodup (m : Nat) (hm : m ≤ 10) :
    ((List.range m).map fun j => digitsL j).Nodup := by
  apply List.Nodup.map_on
  · intro x hx y hy hxy
    rw [List.mem_range] at hx hy
    exact digitsL_inj x (by omega) y (by omega) hxy
  · exact List.nodup_range m

theorem indexOf_digits (m : Nat) (hm : m ≤ 10) (i : Nat) (hi : i < m) :
    ((List.range m).map fun j => digitsL j).indexOf (digitsL i) = i := by
  have hlen : i < ((List.range m).map fun j => digitsL j).length := by
    simp [hi]
  have h1 := indexOf_getElem_nodup _ (digits_nodup m hm) i hlen
  rw [List.get_eq_getElem, List.getElem_map, List.getElem_range] at h1
  exact h1

theorem mem_intercalateChars (sep : List Char) :
    ∀ (bs : List (List Char)) (c : Char), c ∈ intercalateChars sep bs →
      c ∈ sep ∨ ∃ b ∈ bs, c ∈ b
  | [], c, h => by simp [intercalateChars] at h
  | [b], c, h => by
    rw [intercalateChars] at h
    exact Or.inr ⟨b, by simp, h⟩
  | b :: b2 :: bs, c, h => by
    rw [intercalateChars] at h
    rcases List.mem_append.mp h with h1 | h1
    · rcases List.mem_append.mp h1 with h2 | h2
      · exact Or.inr ⟨b, by simp, h2⟩
      · exact Or.inl h2
    · rcases mem_intercalateChars sep (b2 :: bs) c h1 with h2 | ⟨b3, hb3, hc3⟩
      · exact Or.inl h2
      · exact Or.inr ⟨b3, by simp [hb3], hc3⟩

theorem splitStrip_join : ∀ (bs : List (List Char)), bs ≠ [] →
    (∀ b ∈ bs, ∀ c ∈ b, ¬c = ',' ∧ c.isWhitespace = false) →
    splitStrip (intercalateChars [',', ' '] bs) = bs
  | [], h0, _ => absurd rfl h0
  | [b], _, hb => by
    rw [intercalateChars]
    unfold splitStrip
    rw [splitOnComma_no_comma b (fun c hc => (hb b (by simp) c hc).1)]
    rw [List.map_cons, List.map_nil,
      trimChars_no_ws b (fun c hc => (hb b (by simp) c hc).2)]
  | b :: b2 :: bs, _, hb => by
    rw [intercalateChars, List.append_assoc]
    show splitStrip (b ++ ',' :: ' ' :: intercalateChars [',', ' ']
      (b2 :: bs)) = _
    unfold splitStrip
    rw [splitOnComma_block b _ (fun c hc => (hb b (by simp) c hc).1)]
    rw [List.map_cons, trimChars_no_ws b (fun c hc => (hb b (by simp) c hc).2)]
    show b :: splitStrip (' ' :: intercalateChars [',', ' '] (b2 :: bs)) =
      b :: b2 :: bs
    rw [splitStrip_cons_space]
    rw [splitStrip_join (b2 :: bs) (by simp) (fun x hx => hb x (by simp [hx]))]

theorem findall1_intercalate : ∀ (es : List (List Char × List Char)),
    (∀ e ∈ es, e.1 ≠ [] ∧ (∀ c ∈ e.1, isWordChar c = true) ∧
      (∀ c ∈ e.2, isG2Char c = true) ∧ decomposable e.2 = true) →
    findall1 (intercalateChars [' ']
      (es.map fun e => e.1 ++ '(' :: (e.2 ++ [')']))) = es
  | [], _ => rfl
  | [e], h => by
    obtain ⟨h1, h2, h3, h4⟩ := h e (by simp)
    simp only [List.map_cons, List.map_nil, intercalateChars]
    have h5 := findall1_elem e.1 e.2 [] h1 h2 h3 h4
    simpa using h5
  | e :: e2 :: es, h => by
    obtain ⟨h1, h2, h3, h4⟩ := h e (by simp)
    have hrec := findall1_intercalate (e2 :: es)
      (fun x hx => h x (by simp [hx]))
    simp only [List.map_cons] at hrec ⊢
    rw [intercalateChars]
    generalize hI : intercalateChars [' ']
      ((e2.1 ++ '(' :: (e2.2 ++ [')'])) ::
        List.map (fun x => x.1 ++ '(' :: (x.2 ++ [')'])) es) = I at hrec ⊢
    have hre : (e.1 ++ '(' :: (e.2 ++ [')'])) ++ [' '] ++ I =
        e.1 ++ '(' :: (e.2 ++ ')' :: (' ' :: I)) := by
      simp
    rw [hre]
    rw [findall1_elem e.1 e.2 _ h1 h2 h3 h4]
    rw [findall1_skip ' ' _ (by decide)]
    rw [hrec]

/-! ## Round trip: serialise and re-parse -/

theorem findall1_nil : findall1 [] = [] := rfl

theorem fromStringChars_eps_serial (name w : List Char) (hn0 : name ≠ [])
    (hname : ∀ c ∈ name, isWordChar c = true)
    (hw : ∀ c ∈ w, isG2Char c = true) (hdec : decomposable w = true)
    (hnc : ∀ c ∈ w, ¬c = ',') (hnw : trimChars w = w)
    (hval : MCFGRule.validB ⟨⟨name.asString, [[.lit w.asString]]⟩, []⟩ =
      true) :
    fromStringChars (ruleToChars ⟨⟨name.asString, [[.lit w.asString]]⟩, []⟩) =
      some ⟨⟨name.asString, [[.lit w.asString]]⟩, []⟩ := by
  have hser : ruleToChars ⟨⟨name.asString, [[.lit w.asString]]⟩, []⟩ =
      name ++ '(' :: (w ++ [')']) := by
    rw [ruleToChars, if_pos (by rfl)]
    unfold elemToChars
    simp only [List.map_cons, List.map_nil, List.flatMap_cons,
      List.flatMap_nil, svToChars, toList_asString, List.append_nil,
      intercalateChars]
  rw [hser]
  have hfa : findall1 (name ++ '(' :: (w ++ [')'])) = [(name, w)] := by
    have h1 := findall1_elem name w [] hn0 hname hw hdec
    rw [findall1_nil] at h1
    exact h1
  simp only [fromStringChars, hfa]
  have hsplit : splitStrip w = [w] := by
    unfold splitStrip
    rw [splitOnComma_no_comma w hnc]
    simp [hnw]
  rw [hsplit]
  simp only [List.map_cons, List.map_nil]
  rw [if_pos hval]

theorem wordChar_ne_comma (c : Char) (h : isWordChar c = true) :
    ¬c = ',' := by
  intro he
  subst he
  revert h
  decide

theorem splitStrip_ne_nil (v : List Char) : splitStrip v ≠ [] := by
  unfold splitStrip
  simp only [ne_eq, List.map_eq_nil_iff]
  exact splitOnComma_ne_nil v

theorem map_flatMap_sv (idss : List (List Nat)) :
    (idss.map fun ids => ids.map SV.ix).map
      (fun comp => comp.flatMap svToChars) =
      idss.map fun ids => ids.flatMap fun i => digitsL i := by
  rw [List.map_map]
  apply List.map_congr_left
  intro ids _
  show (ids.map SV.ix).flatMap svToChars = ids.flatMap fun i => digitsL i
  rw [List.flatMap_map]
  rfl

theorem elemToChars_left_ids (lname : List Char) (idss : List (List Nat)) :
    elemToChars ⟨lname.asString, idss.map fun ids => ids.map SV.ix⟩ =
      lname ++ '(' :: (intercalateChars [',', ' ']
        (idss.map fun ids => ids.flatMap fun i => digitsL i) ++ [')']) := by
  unfold elemToChars
  dsimp only
  rw [map_flatMap_sv idss, toList_asString]

theorem elemToChars_rightOf (rest : List (List Char × List Char))
    (p : List Char × List Char) :
    elemToChars (rightOf rest p) =
      p.1 ++ '(' :: (intercalateChars [',', ' ']
        ((splitStrip p.2).map fun v => digitsL ((svarsOf rest).indexOf v))
        ++ [')']) := by
  have hcomp : ((splitStrip p.2).map fun v =>
      [SV.ix ((svarsOf rest).indexOf v)]).map
        (fun comp => comp.flatMap svToChars) =
      (splitStrip p.2).map fun v =>
        digitsL ((svarsOf rest).indexOf v) := by
    rw [List.map_map]
    apply List.map_congr_left
    intro v _
    show [SV.ix ((svarsOf rest).indexOf v)].flatMap svToChars = _
    simp [svToChars, digitsL]
  unfold rightOf elemToChars
  dsimp only
  rw [hcomp, toList_asString]

theorem fromStringChars_noneps_serial (lname : List Char)
    (idss : List (List Nat)) (q : List Char × List Char)
    (rest0 : List (List Char × List Char))
    (hln0 : lname ≠ []) (hlw : ∀ c ∈ lname, isWordChar c = true)
    (hrw : ∀ p ∈ q :: rest0, p.1 ≠ [] ∧ ∀ c ∈ p.1, isWordChar c = true)
    (hnd : (svarsOf (q :: rest0)).Nodup)
    (hm : (svarsOf (q :: rest0)).length ≤ 10)
    (hidss0 : idss ≠ [])
    (hids : ∀ ids ∈ idss, ids ≠ [] ∧
      ∀ i ∈ ids, i < (svarsOf (q :: rest0)).length)
    (hval : (ruleNE lname idss (q :: rest0)).validB = true) :
    fromStringChars (ruleToChars (ruleNE lname idss (q :: rest0))) =
      some (ruleNE lname idss (q :: rest0)) := by
  have hm10 : ∀ i, i < (svarsOf (q :: rest0)).length → i < 10 :=
    fun i hi => lt_of_lt_of_le hi hm
  have hvlt : ∀ p ∈ q :: rest0, ∀ v ∈ splitStrip p.2,
      (svarsOf (q :: rest0)).indexOf v < (svarsOf (q :: rest0)).length := by
    intro p hp v hv
    apply indexOf_lt_of_mem
    unfold svarsOf
    rw [List.mem_flatMap]
    exact ⟨p, hp, hv⟩
  have hLg2 : ∀ c ∈ intercalateChars [',', ' ']
      (idss.map fun ids => ids.flatMap fun i => digitsL i),
      isG2Char c = true := by
    intro c hc
    rcases mem_intercalateChars _ _ c hc with hs | ⟨b, hb, hcb⟩
    · have h1 : c = ',' ∨ c = ' ' := by simpa using hs
      rcases h1 with h1 | h1 <;> subst h1 <;> decide
    · rw [List.mem_map] at hb
      obtain ⟨ids, hidsmem, rfl⟩ := hb
      rw [List.mem_flatMap] at hcb
      obtain ⟨i, hii, hci⟩ := hcb
      exact isWordChar_isG2Char c
        (digitsL_word i (hm10 i ((hids ids hidsmem).2 i hii)) c hci)
  have hLdec : decomposable (intercalateChars [',', ' ']
      (idss.map fun ids => ids.flatMap fun i => digitsL i)) = true := by
    apply decomposable_words_join
    · simpa using hidss0
    · intro b hb
      rw [List.mem_map] at hb
      obtain ⟨ids, hidsmem, rfl⟩ := hb
      constructor
      · intro h0
        have hlen := flatMap_digitsL_length ids
          (fun i hi => hm10 i ((hids ids hidsmem).2 i hi))
        rw [h0] at hlen
        simp only [List.length_nil] at hlen
        exact (hids ids hidsmem).1 (List.length_eq_zero.mp hlen.symm)
      · intro c hc
        rw [List.mem_flatMap] at hc
        obtain ⟨i, hii, hci⟩ := hc
        exact digitsL_word i (hm10 i ((hids ids hidsmem).2 i hii)) c hci
  have hVg2 : ∀ p ∈ q :: rest0, ∀ c ∈ intercalateChars [',', ' ']
      ((splitStrip p.2).map fun v =>
        digitsL ((svarsOf (q :: rest0)).indexOf v)),
      isG2Char c = true := by
    intro p hp c hc
    rcases mem_intercalateChars _ _ c hc with hs | ⟨b, hb, hcb⟩
    · have h1 : c = ',' ∨ c = ' ' := by simpa using hs
      rcases h1 with h1 | h1 <;> subst h1 <;> decide
    · rw [List.mem_map] at hb
      obtain ⟨v, hv, rfl⟩ := hb
      exact isWordChar_isG2Char c
        (digitsL_word _ (hm10 _ (hvlt p hp v hv)) c hcb)
  have hVdec : ∀ p ∈ q :: rest0, decomposable (intercalateChars [',', ' ']
      ((splitStrip p.2).map fun v =>
        digitsL ((svarsOf (q :: rest0)).indexOf v))) = true := by
    intro p hp
    apply decomposable_words_join
    · simp only [ne_eq, List.map_eq_nil_iff]
      exact splitStrip_ne_nil p.2
    · intro b hb
      rw [List.mem_map] at hb
      obtain ⟨v, hv, rfl⟩ := hb
      have hlt := hm10 _ (hvlt p hp v hv)
      constructor
      · intro h0
        have h1 := digitsL_len _ hlt
        rw [h0] at h1
        simp at h1
      · exact digitsL_word _ hlt
  have hsplitV : ∀ p ∈ q :: rest0, splitStrip (intercalateChars [',', ' ']
      ((splitStrip p.2).map fun v =>
        digitsL ((svarsOf (q :: rest0)).indexOf v))) =
      (splitStrip p.2).map fun v =>
        digitsL ((svarsOf (q :: rest0)).indexOf v) := by
    intro p hp
    apply splitStrip_join
    · simp only [ne_eq, List.map_eq_nil_iff]
      exact splitStrip_ne_nil p.2
    · intro b hb c hc
      rw [List.mem_map] at hb
      obtain ⟨v, hv, rfl⟩ := hb
      have hw := digitsL_word _ (hm10 _ (hvlt p hp v hv)) c hc
      exact ⟨wordChar_ne_comma c hw, wordChar_not_ws c hw⟩
  have hsplitL : splitStrip (intercalateChars [',', ' ']
      (idss.map fun ids => ids.flatMap fun i => digitsL i)) =
      idss.map fun ids => ids.flatMap fun i => digitsL i := by
    apply splitStrip_join
    · simpa using hidss0
    · intro b hb c hc
      rw [List.mem_map] at hb
      obtain ⟨ids, hidsmem, rfl⟩ := hb
      rw [List.mem_flatMap] at hc
      obtain ⟨i, hii, hci⟩ := hc
      have hw := digitsL_word i (hm10 i ((hids ids hidsmem).2 i hii)) c hci
      exact ⟨wordChar_ne_comma c hw, wordChar_not_ws c hw⟩
  have hserial : ruleToChars (ruleNE lname idss (q :: rest0)) =
      lname ++ '(' :: (intercalateChars [',', ' ']
          (idss.map fun ids => ids.flatMap fun i => digitsL i) ++
        ')' :: (' ' :: '-' :: '>' :: ' ' ::
          intercalateChars [' ']
            (((q :: rest0).map fun p => (p.1, intercalateChars [',', ' ']
              ((splitStrip p.2).map fun v =>
                digitsL ((svarsOf (q :: rest0)).indexOf v)))).map
              fun e => e.1 ++ '(' :: (e.2 ++ [')'])))) := by
    rw [ruleToChars]
    rw [if_neg (by simp [ruleNE, MCFGRule.is_epsilon])]
    unfold ruleNE
    dsimp only
    rw [elemToChars_left_ids]
    have hmap : ((q :: rest0).map (rightOf (q :: rest0))).map elemToChars =
        ((q :: rest0).map fun p => (p.1, intercalateChars [',', ' ']
          ((splitStrip p.2).map fun v =>
            digitsL ((svarsOf (q :: rest0)).indexOf v)))).map
          fun e => e.1 ++ '(' :: (e.2 ++ [')']) := by
      rw [List.map_map, List.map_map]
      apply List.map_congr_left
      intro p hp
      show elemToChars (rightOf (q :: rest0) p) = _
      rw [elemToChars_rightOf]
      rfl
    rw [hmap]
    simp
  have hescond : ∀ e ∈ (q :: rest0).map fun p => (p.1,
      intercalateChars [',', ' '] ((splitStrip p.2).map fun v =>
        digitsL ((svarsOf (q :: rest0)).indexOf v))),
      e.1 ≠ [] ∧ (∀ c ∈ e.1, isWordChar c = true) ∧
        (∀ c ∈ e.2, isG2Char c = true) ∧ decomposable e.2 = true := by
    intro e he
    rw [List.mem_map] at he
    obtain ⟨p, hp, rfl⟩ := he
    exact ⟨(hrw p hp).1, (hrw p hp).2, hVg2 p hp, hVdec p hp⟩
  have hfa : findall1 (ruleToChars (ruleNE lname idss (q :: rest0))) =
      (lname, intercalateChars [',', ' ']
        (idss.map fun ids => ids.flatMap fun i => digitsL i)) ::
      ((q.1, intercalateChars [',', ' ']
        ((splitStrip q.2).map fun v =>
          digitsL ((svarsOf (q :: rest0)).indexOf v))) ::
       rest0.map fun p => (p.1, intercalateChars [',', ' ']
        ((splitStrip p.2).map fun v =>
          digitsL ((svarsOf (q :: rest0)).indexOf v)))) := by
    rw [hserial]
    rw [findall1_elem lname _ _ hln0 hlw hLg2 hLdec]
    rw [findall1_skip ' ' _ (by decide), findall1_skip '-' _ (by decide),
      findall1_skip '>' _ (by decide), findall1_skip ' ' _ (by decide)]
    rw [findall1_intercalate _ hescond]
    rw [List.map_cons]
  simp only [fromStringChars, hfa]
  have hmapfold : ((q.1, intercalateChars [',', ' ']
      ((splitStrip q.2).map fun v =>
        digitsL ((svarsOf (q :: rest0)).indexOf v))) ::
      rest0.map fun p => (p.1, intercalateChars [',', ' ']
        ((splitStrip p.2).map fun v =>
          digitsL ((svarsOf (q :: rest0)).indexOf v)))) =
      (q :: rest0).map fun p => (p.1, intercalateChars [',', ' ']
        ((splitStrip p.2).map fun v =>
          digitsL ((svarsOf (q :: rest0)).indexOf v))) := by
    simp
  rw [hmapfold]
  have hsv' : (((q :: rest0).map fun p => (p.1, intercalateChars [',', ' ']
      ((splitStrip p.2).map fun v =>
        digitsL ((svarsOf (q :: rest0)).indexOf v)))).flatMap
      fun p => splitStrip p.2) =
      (List.range (svarsOf (q :: rest0)).length).map fun j => digitsL j := by
    rw [List.flatMap_def, List.map_map]
    have h1 : (q :: rest0).map ((fun p => splitStrip p.2) ∘
        fun p => (p.1, intercalateChars [',', ' ']
          ((splitStrip p.2).map fun v =>
            digitsL ((svarsOf (q :: rest0)).indexOf v)))) =
        (q :: rest0).map (fun p => (splitStrip p.2).map fun v =>
          digitsL ((svarsOf (q :: rest0)).indexOf v)) :=
      List.map_congr_left (fun p hp => hsplitV p hp)
    rw [h1, ← List.flatMap_def]
    have h2 : ((q :: rest0).flatMap fun p => (splitStrip p.2).map fun v =>
        digitsL ((svarsOf (q :: rest0)).indexOf v)) =
        ((q :: rest0).flatMap fun p => splitStrip p.2).map fun v =>
          digitsL ((svarsOf (q :: rest0)).indexOf v) :=
      (List.map_flatMap (fun v => digitsL ((svarsOf (q :: rest0)).indexOf v))
        (fun p => splitStrip p.2) (q :: rest0)).symm
    rw [h2]
    have hfold : ((q :: rest0).flatMap fun p => splitStrip p.2) =
        svarsOf (q :: rest0) := rfl
    rw [hfold]
    have h3 : ((svarsOf (q :: rest0)).map fun v =>
        digitsL ((svarsOf (q :: rest0)).indexOf v)) =
        ((svarsOf (q :: rest0)).map fun v =>
          (svarsOf (q :: rest0)).indexOf v).map fun j => digitsL j := by
      rw [List.map_map]
      apply List.map_congr_left
      intro v _
      rfl
    rw [h3, nodup_map_indexOf _ hnd]
  rw [hsv']
  rw [if_pos (digits_nodup (svarsOf (q :: rest0)).length hm)]
  have hleft' : ((splitStrip (intercalateChars [',', ' ']
      (idss.map fun ids => ids.flatMap fun i => digitsL i))).map
      fun vs => (findallAlt
        ((List.range (svarsOf (q :: rest0)).length).map fun j => digitsL j)
        vs).map fun v => SV.ix
          (((List.range (svarsOf (q :: rest0)).length).map
            fun j => digitsL j).indexOf v)) =
      idss.map fun ids => ids.map SV.ix := by
    rw [hsplitL, List.map_map]
    apply List.map_congr_left
    intro ids hidsmem
    show (findallAlt
        ((List.range (svarsOf (q :: rest0)).length).map fun j => digitsL j)
        (ids.flatMap fun i => digitsL i)).map
      (fun v => SV.ix
        (((List.range (svarsOf (q :: rest0)).length).map
          fun j => digitsL j).indexOf v)) = ids.map SV.ix
    rw [findallAlt_digits (svarsOf (q :: rest0)).length hm ids
      (fun i hi => (hids ids hidsmem).2 i hi)]
    rw [List.map_map]
    apply List.map_congr_left
    intro i hii
    show SV.ix (((List.range (svarsOf (q :: rest0)).length).map
      fun j => digitsL j).indexOf (digitsL i)) = SV.ix i
    rw [indexOf_digits (svarsOf (q :: rest0)).length hm i
      ((hids ids hidsmem).2 i hii)]
  rw [hleft']
  have hright' : (((q :: rest0).map fun p => (p.1,
      intercalateChars [',', ' '] ((splitStrip p.2).map fun v =>
        digitsL ((svarsOf (q :: rest0)).indexOf v)))).map
      fun p => (⟨p.1.asString, (splitStrip p.2).map fun v =>
        [SV.ix (((List.range (svarsOf (q :: rest0)).length).map
          fun j => digitsL j).indexOf v)]⟩ : MCFGRuleElement)) =
      (q :: rest0).map (rightOf (q :: rest0)) := by
    rw [List.map_map]
    apply List.map_congr_left
    intro p hp
    show (⟨p.1.asString, (splitStrip (intercalateChars [',', ' ']
        ((splitStrip p.2).map fun v =>
          digitsL ((svarsOf (q :: rest0)).indexOf v)))).map fun v =>
        [SV.ix (((List.range (svarsOf (q :: rest0)).length).map
          fun j => digitsL j).indexOf v)]⟩ : MCFGRuleElement) =
      rightOf (q :: rest0) p
    rw [hsplitV p hp]
    unfold rightOf
    congr 1
    rw [List.map_map]
    apply List.map_congr_left
    intro v hv
    show [SV.ix (((List.range (svarsOf (q :: rest0)).length).map
      fun j => digitsL j).indexOf
        (digitsL ((svarsOf (q :: rest0)).indexOf v)))] =
      [SV.ix ((svarsOf (q :: rest0)).indexOf v)]
    rw [indexOf_digits (svarsOf (q :: rest0)).length hm _ (hvlt p hp v hv)]
  rw [hright']
  have hfold2 : (⟨⟨lname.asString, idss.map fun ids => ids.map SV.ix⟩,
      (q :: rest0).map (rightOf (q :: rest0))⟩ : MCFGRule) =
      ruleNE lname idss (q :: rest0) := rfl
  rw [hfold2]
  rw [if_pos hval]

theorem findallAltFuel_mem : ∀ (fuel : Nat) (names : List (List Char))
    (t x : List Char), x ∈ findallAltFuel fuel names t → x ∈ names
  | 0, _, _, _, h => by simp [findallAltFuel] at h
  | fuel + 1, names, [], x, h => by
    cases hfm : firstAltMatch names [] with
    | none => simp [findallAltFuel, hfm] at h
    | some nm =>
      simp only [findallAltFuel, hfm, List.mem_singleton] at h
      subst h
      exact List.mem_of_find?_eq_some hfm
  | fuel + 1, names, c :: rest, x, h => by
    cases hfm : firstAltMatch names (c :: rest) with
    | none =>
      simp only [findallAltFuel, hfm] at h
      exact findallAltFuel_mem fuel names rest x h
    | some nm =>
      cases nm with
      | nil =>
        simp only [findallAltFuel, hfm] at h
        rcases List.mem_cons.mp h with h1 | h1
        · subst h1
          exact List.mem_of_find?_eq_some hfm
        · exact findallAltFuel_mem fuel names rest x h1
      | cons d nm0 =>
        simp only [findallAltFuel, hfm] at h
        rcases List.mem_cons.mp h with h1 | h1
        · subst h1
          exact List.mem_of_find?_eq_some hfm
        · exact findallAltFuel_mem fuel names _ x h1

theorem findallAlt_mem (names : List (List Char)) (t x : List Char)
    (h : x ∈ findallAlt names t) : x ∈ names :=
  findallAltFuel_mem (t.length + 1) names t x h

/-- C8 (amended): for every rule string accepted by `MCFGRule.from_string`
whose parsed rule is either an epsilon rule with exactly one literal, or a
non-epsilon rule with at most ten right-side string variables and no empty
left-side component, serialising the rule with `__str__` and re-parsing
the text yields the same rule. -/
theorem from_string_round_trip (s : String) (r : MCFGRule)
    (h : MCFGRule.from_string s = some r)
    (hc : roundTripCond r = true) :
    MCFGRule.from_string (ruleToString r) = some r := by
  unfold MCFGRule.from_string ruleToString
  rw [toList_asString]
  unfold MCFGRule.from_string fromStringChars at h
  split at h
  · exact absurd h (by simp)
  · case h_2 x0 name vars heq =>
    dsimp only at h
    split at h
    case isFalse => exact absurd h (by simp)
    case isTrue hval =>
    simp only [Option.some.injEq] at h
    subst h
    cases hsp : splitStrip vars with
    | nil =>
      rw [hsp] at hc
      simp [roundTripCond] at hc
    | cons w ws =>
      cases ws with
      | cons w2 ws2 =>
        rw [hsp] at hc
        simp [roundTripCond] at hc
      | nil =>
        obtain ⟨hn0, hnw, hvG2, hvdec⟩ :=
          findall1_shape s.toList (name, vars) (by rw [heq]; simp)
        have hsp2 := hsp
        unfold splitStrip at hsp2
        cases hsoc : splitOnComma vars with
        | nil => rw [hsoc] at hsp2; simp at hsp2
        | cons piece more =>
          rw [hsoc] at hsp2
          simp only [List.map_cons, List.cons.injEq,
            List.map_eq_nil_iff] at hsp2
          obtain ⟨hw, hmore⟩ := hsp2
          subst hmore
          obtain ⟨hpv, hnc⟩ := splitOnComma_singleton vars piece hsoc
          subst hw
          rw [hpv] at hsp ⊢
          simp only [List.map_cons, List.map_nil]
          apply fromStringChars_eps_serial name (trimChars vars) hn0 hnw
          · intro c hcm
            exact hvG2 c (mem_trimChars vars c hcm)
          · rcases trimChars_decomposable vars hvdec with
              h1 | ⟨t1, hteq, htr, htdec⟩
            · rwa [h1]
            · rwa [htr]
          · intro c hcm
            exact hnc c (mem_trimChars vars c hcm)
          · exact trimChars_idem vars
          · rw [hsp] at hval
            simpa using hval
  · case h_3 x0 lname lvars rest hne heq =>
    obtain ⟨q, rest0, rfl⟩ : ∃ q rest0, rest = q :: rest0 := by
      cases rest with
      | nil => exact (hne rfl).elim
      | cons q rest0 => exact ⟨q, rest0, rfl⟩
    dsimp only at h
    split at h
    case isFalse => exact absurd h (by simp)
    case isTrue hnd =>
    split at h
    case isFalse => exact absurd h (by simp)
    case isTrue hval =>
    simp only [Option.some.injEq] at h
    subst h
    obtain ⟨hln0, hlw, hlg2x, hldecx⟩ :=
      findall1_shape s.toList (lname, lvars) (by rw [heq]; simp)
    have hrw : ∀ p ∈ q :: rest0, p.1 ≠ [] ∧
        ∀ c ∈ p.1, isWordChar c = true := by
      intro p hp
      obtain ⟨h1, h2, _, _⟩ :=
        findall1_shape s.toList p (by rw [heq]; simp [hp])
      exact ⟨h1, h2⟩
    have hnd' : (svarsOf (q :: rest0)).Nodup := hnd
    have hC : (⟨⟨lname.asString, (splitStrip lvars).map fun vs =>
        (findallAlt ((q :: rest0).flatMap fun p => splitStrip p.2) vs).map
          fun v => SV.ix
            (((q :: rest0).flatMap fun p => splitStrip p.2).indexOf v)⟩,
        (q :: rest0).map fun p =>
          (⟨p.1.asString, (splitStrip p.2).map fun v =>
            [SV.ix (((q :: rest0).flatMap fun p2 =>
              splitStrip p2.2).indexOf v)]⟩ : MCFGRuleElement)⟩ :
          MCFGRule) =
        ruleNE lname ((splitStrip lvars).map fun vs =>
          (findallAlt (svarsOf (q :: rest0)) vs).map
            fun v => (svarsOf (q :: rest0)).indexOf v) (q :: rest0) := by
      unfold ruleNE rightOf svarsOf
      congr 1
      congr 1
      rw [List.map_map]
      apply List.map_congr_left
      intro vs _
      show List.map (fun v => SV.ix (List.indexOf v
          ((q :: rest0).flatMap fun p => splitStrip p.2)))
        (findallAlt ((q :: rest0).flatMap fun p => splitStrip p.2) vs) =
        List.map SV.ix (List.map (fun v => List.indexOf v
          ((q :: rest0).flatMap fun p => splitStrip p.2))
          (findallAlt ((q :: rest0).flatMap fun p => splitStrip p.2) vs))
      rw [List.map_map]
      rfl
    rw [hC] at hval hc ⊢
    rw [roundTripCond] at hc
    rw [if_neg (by simp [ruleNE])] at hc
    rw [Bool.and_eq_true] at hc
    obtain ⟨hc1, hc2⟩ := hc
    have hsum : (((q :: rest0).map (rightOf (q :: rest0))).map
        (fun e => e.string_variables.length)).sum =
        (svarsOf (q :: rest0)).length := by
      rw [List.map_map]
      unfold svarsOf
      rw [List.length_flatMap]
      apply congrArg List.sum
      apply List.map_congr_left
      intro p hp
      show (rightOf (q :: rest0) p).string_variables.length = _
      unfold rightOf
      dsimp only
      rw [List.length_map]
      rfl
    have hm : (svarsOf (q :: rest0)).length ≤ 10 := by
      have h1 := of_decide_eq_true hc1
      rw [show (ruleNE lname ((splitStrip lvars).map fun vs =>
        (findallAlt (svarsOf (q :: rest0)) vs).map
          fun v => (svarsOf (q :: rest0)).indexOf v)
        (q :: rest0)).right_side =
        (q :: rest0).map (rightOf (q :: rest0)) from rfl] at h1
      rwa [hsum] at h1
    have hidss0 : ((splitStrip lvars).map fun vs =>
        (findallAlt (svarsOf (q :: rest0)) vs).map
          fun v => (svarsOf (q :: rest0)).indexOf v) ≠ [] := by
      simp only [ne_eq, List.map_eq_nil_iff]
      exact splitStrip_ne_nil lvars
    have hids : ∀ ids ∈ (splitStrip lvars).map fun vs =>
        (findallAlt (svarsOf (q :: rest0)) vs).map
          fun v => (svarsOf (q :: rest0)).indexOf v,
        ids ≠ [] ∧ ∀ i ∈ ids, i < (svarsOf (q :: rest0)).length := by
      intro ids hmem
      constructor
      · rw [List.all_eq_true] at hc2
        have hmm : ids.map SV.ix ∈ (ruleNE lname
            ((splitStrip lvars).map fun vs =>
              (findallAlt (svarsOf (q :: rest0)) vs).map
                fun v => (svarsOf (q :: rest0)).indexOf v)
            (q :: rest0)).left_side.string_variables :=
          List.mem_map_of_mem _ hmem
        have h2 := hc2 _ hmm
        intro h0
        subst h0
        simp at h2
      · intro i hi
        obtain ⟨vs, hvs, rfl⟩ := List.mem_map.mp hmem
        obtain ⟨v, hv, rfl⟩ := List.mem_map.mp hi
        exact indexOf_lt_of_mem _ v (findallAlt_mem _ _ v hv)
    exact fromStringChars_noneps_serial lname _ q rest0 hln0 hlw hrw hnd'
      hm hidss0 hids hval

/-- C8 counterexample: three rule strings accepted by `from_string` whose
serialisation does not re-parse to the same rule: a two-literal epsilon
rule (`str` concatenates the literals), a rule with an empty left
component (the empty block breaks the element regex), and an
eleven-variable rule (variable 10 re-parses as the two digits 1, 0). -/
theorem from_string_round_trip_cex :
    (MCFGRule.from_string "D(a, b)" = some ruleEpsAB ∧
      MCFGRule.from_string (ruleToString ruleEpsAB) ≠ some ruleEpsAB) ∧
    (MCFGRule.from_string "A(x, uv) -> B(u, v)" = some ruleEmptyComp ∧
      MCFGRule.from_string (ruleToString ruleEmptyComp) ≠
        some ruleEmptyComp) ∧
    (∀ r, MCFGRule.from_string elevenVarString = some r →
      MCFGRule.from_string (ruleToString r) ≠ some r) := by
  refine ⟨⟨by decide, by decide⟩, ⟨by decide, by decide⟩, by decide⟩

/-- Witness for the amended C8: `"A(uv) -> B(u) C(v)"` parses to
`ruleRT`, which satisfies the amended condition and round-trips. -/
theorem from_string_round_trip_witness :
    MCFGRule.from_string "A(uv) -> B(u) C(v)" = some ruleRT ∧
      roundTripCond ruleRT = true ∧
      MCFGRule.from_string (ruleToString ruleRT) = some ruleRT :=
  ⟨by decide, by decide,
    from_string_round_trip "A(uv) -> B(u) C(v)" ruleRT (by decide)
      (by decide)⟩

section Examples

example :
    ruleVPwhrc.instantiate_left_side
      [⟨"Vpres", [(3, 4)]⟩, ⟨"Sbarwhrc", [(1, 2), (4, 7)]⟩] =
      .ok ⟨"VPwhrc", [(1, 2), (3, 7)]⟩ := by decide

example :
    ruleVPwhrc.instantiate_left_side
      [⟨"Vpres", [(3, 4)]⟩, ⟨"Sbarwhrc", [(1, 2), (5, 7)]⟩] = .noMatch := by
  decide

example :
    MCFGRule.instantiate_left_side ⟨⟨"D", [[.lit "the"]]⟩, []⟩
      [⟨"the", [(3, 4)]⟩] = .ok ⟨"D", [(3, 4)]⟩ := by decide

end Examples
